import Mathlib

/-!
# Verification of the CLOB matching engine (`rust-matching-engine/src/lib.rs`)

Shallow embedding of the order-book matching engine.  Prices, quantities,
order ids, trade ids and timestamps are `u64` in the source; they are
modelled as `Nat`.  The only `u64` operations the source performs on them
are comparison, addition, checked subtraction (`a - b` with `a ≥ b`
guaranteed by a preceding `min`) and `saturating_sub`; `Nat` subtraction
is truncated and therefore coincides with `saturating_sub`, and with
checked subtraction wherever the source guarantees no underflow.
User/market/outcome identifiers are `String`, as in the source.

* `BTreeMap<Price, PriceLevelQueue>` is modelled as an association list
  sorted strictly ascending by key (`PMap`), which the operations preserve.
* `HashMap<OrderId, OrderMetadata>` is modelled as an association list
  (`Idx`); lookup finds the first matching key.
* `VecDeque<Order>` is modelled as `List Order` with the front at the head.
-/

namespace Clob

/-- `Side` (src/lib.rs). -/
inductive Side where
  | Buy
  | Sell
deriving DecidableEq, Repr

/-- `OrderStatus` (src/lib.rs). -/
inductive OrderStatus where
  | Open
  | PartiallyFilled
  | Filled
  | Cancelled
deriving DecidableEq, Repr

/-- `Order` (src/lib.rs). -/
structure Order where
  id : Nat
  user_id : String
  market_id : String
  outcome_id : String
  side : Side
  price : Nat
  original_quantity : Nat
  remaining_quantity : Nat
  timestamp : Nat
  status : OrderStatus
deriving DecidableEq, Repr

/-- `Trade` (src/lib.rs). -/
structure Trade where
  id : Nat
  taker_order_id : Nat
  maker_order_id : Nat
  taker_user_id : String
  maker_user_id : String
  market_id : String
  outcome_id : String
  price : Nat
  quantity : Nat
  timestamp : Nat
  taker_side : Side
deriving DecidableEq, Repr

/-- `OrderMetadata` (src/lib.rs): the order-index mirror `{price, status, remaining_quantity}`. -/
structure OrderMetadata where
  price : Nat
  status : OrderStatus
  remaining_quantity : Nat
deriving DecidableEq, Repr

/-- `PriceLevelQueue` (src/lib.rs): FIFO orders plus the cached level total. -/
structure PriceLevelQueue where
  orders : List Order
  total_quantity : Nat
deriving DecidableEq, Repr

/-- The order index `HashMap<OrderId, OrderMetadata>`. -/
abbrev Idx := List (Nat × OrderMetadata)

/-- One side of the book, `BTreeMap<Price, PriceLevelQueue>`, kept sorted
strictly ascending by key. -/
abbrev PMap := List (Nat × PriceLevelQueue)

/-- `OrderBookError` (src/lib.rs). -/
inductive OrderBookError where
  | DuplicateOrderId (id : Nat)
  | OrderNotFound (id : Nat)
  | OrderAlreadyCancelled (id : Nat)
  | OrderAlreadyFilled (id : Nat)
  | InvalidPrice
  | InvalidQuantity
  | MarketMismatch
deriving DecidableEq, Repr

/-- `OrderBook` (src/lib.rs). -/
structure OrderBook where
  market_id : String
  outcome_id : String
  bids : PMap
  asks : PMap
  order_index : Idx
  next_trade_id : Nat
  total_trades : Nat
  total_volume : Nat
deriving DecidableEq, Repr

/-- `ProcessOrderResult` (src/lib.rs). -/
structure ProcessOrderResult where
  trades : List Trade
  order : Order
deriving DecidableEq, Repr

/-! ## Association-list operations for the order index (`HashMap`) -/

/-- `HashMap::get`. -/
def idxGet (idx : Idx) (k : Nat) : Option OrderMetadata :=
  match idx with
  | [] => none
  | (k', v) :: rest => if k' = k then some v else idxGet rest k

/-- `HashMap::insert` (replaces an existing binding). -/
def idxInsert (idx : Idx) (k : Nat) (v : OrderMetadata) : Idx :=
  match idx with
  | [] => [(k, v)]
  | (k', v') :: rest =>
      if k' = k then (k, v) :: rest else (k', v') :: idxInsert rest k v

/-- `HashMap::remove`. -/
def idxRemove (idx : Idx) (k : Nat) : Idx :=
  match idx with
  | [] => []
  | (k', v') :: rest => if k' = k then rest else (k', v') :: idxRemove rest k

/-- `HashMap::get_mut` followed by a field update: update the binding at `k`
in place if present, otherwise do nothing. -/
def idxUpdate (idx : Idx) (k : Nat) (f : OrderMetadata → OrderMetadata) : Idx :=
  match idx with
  | [] => []
  | (k', v) :: rest =>
      if k' = k then (k, f v) :: rest else (k', v) :: idxUpdate rest k f

/-! ## Sorted-map operations for the price sides (`BTreeMap`) -/

/-- `BTreeMap::get`. -/
def pmGet (m : PMap) (k : Nat) : Option PriceLevelQueue :=
  match m with
  | [] => none
  | (k', v) :: rest => if k' = k then some v else pmGet rest k

/-- `BTreeMap::get_mut` + in-place overwrite of the level at `k`
(no insertion if the key is absent). -/
def pmSet (m : PMap) (k : Nat) (v : PriceLevelQueue) : PMap :=
  match m with
  | [] => []
  | (k', v') :: rest =>
      if k' = k then (k, v) :: rest else (k', v') :: pmSet rest k v

/-- `BTreeMap::remove`. -/
def pmErase (m : PMap) (k : Nat) : PMap :=
  match m with
  | [] => []
  | (k', v') :: rest => if k' = k then rest else (k', v') :: pmErase rest k

/-- `BTreeMap::keys` (ascending). -/
def pmKeys (m : PMap) : List Nat := m.map Prod.fst

/-- `keys().next_back()`: the last (largest, for a sorted map) key. -/
def pmLastKey (m : PMap) : Option Nat :=
  match m with
  | [] => none
  | [(k, _)] => some k
  | _ :: rest => pmLastKey rest

/-- `keys().next()`: the first (smallest, for a sorted map) key. -/
def pmFirstKey (m : PMap) : Option Nat :=
  match m with
  | [] => none
  | (k, _) :: _ => some k

/-- `book.entry(price).or_insert_with(PriceLevelQueue::new).push_back(order)`:
insert the order at the back of the level at `price`, creating the level (at
its sorted position) if absent.  `push_back` adds the order's remaining
quantity to the cached level total. -/
def pmPush (m : PMap) (price : Nat) (o : Order) : PMap :=
  match m with
  | [] => [(price, ⟨[o], o.remaining_quantity⟩)]
  | (k, q) :: rest =>
      if price < k then
        (price, ⟨[o], o.remaining_quantity⟩) :: (k, q) :: rest
      else if price = k then
        (k, ⟨q.orders ++ [o], q.total_quantity + o.remaining_quantity⟩) :: rest
      else
        (k, q) :: pmPush rest price o

end Clob

namespace Clob

/-! ## `PriceLevelQueue` methods -/

namespace PriceLevelQueue

/-- `PriceLevelQueue::new`. -/
def new : PriceLevelQueue := ⟨[], 0⟩

/-- `PriceLevelQueue::push_back`. -/
def push_back (q : PriceLevelQueue) (o : Order) : PriceLevelQueue :=
  ⟨q.orders ++ [o], q.total_quantity + o.remaining_quantity⟩

/-- `PriceLevelQueue::pop_front`: removes the front order and subtracts its
remaining quantity from the cached total with `saturating_sub` (`Nat`
subtraction is saturating). -/
def pop_front (q : PriceLevelQueue) : Option Order × PriceLevelQueue :=
  match q.orders with
  | [] => (none, q)
  | o :: rest => (some o, ⟨rest, q.total_quantity - o.remaining_quantity⟩)

/-- `PriceLevelQueue::update_quantity`: `total_quantity.saturating_sub(filled)`. -/
def update_quantity (q : PriceLevelQueue) (filled : Nat) : PriceLevelQueue :=
  ⟨q.orders, q.total_quantity - filled⟩

/-- `PriceLevelQueue::cleanup_cancelled` acting on the raw order list: pop
orders off the front (of the raw `VecDeque`, leaving `total_quantity`
untouched) while the front order's index entry says `Cancelled`. -/
def cleanupOrders (idx : Idx) : List Order → List Order
  | [] => []
  | o :: rest =>
      match idxGet idx o.id with
      | some m =>
          if m.status = OrderStatus.Cancelled then cleanupOrders idx rest
          else o :: rest
      | none => o :: rest

/-- `PriceLevelQueue::cleanup_cancelled` (src/lib.rs lines 291-304): the raw
`VecDeque::pop_front` used there does not adjust `total_quantity`. -/
def cleanup_cancelled (q : PriceLevelQueue) (idx : Idx) : PriceLevelQueue :=
  ⟨cleanupOrders idx q.orders, q.total_quantity⟩

end PriceLevelQueue

/-! ## The matching loop

The per-level `loop { ... }` bodies of `match_buy_order` (src/lib.rs lines
499-604) and `match_sell_order` (lines 637-742) are character-for-character
identical up to the name of the side being consumed; `matchLoop` embeds that
common body, operating on the level's order list and cached total.

The source loop begins each iteration with `cleanup_cancelled` (which pops
every consecutive indexed-`Cancelled` front order via a raw `VecDeque::pop_front`,
leaving the cached total untouched) and then re-tests the front order's index
status, popping it via `PriceLevelQueue::pop_front` if it says `Cancelled`.
After the initial cleanup the front order's index status is never `Cancelled`,
so that second test never fires; `matchLoop` folds the per-front cleanup step
into the recursion (one indexed-`Cancelled` front popped per recursive step,
total unchanged), which yields the same result for every input.

After a fill that leaves the maker with a positive remainder, the taker's
remaining quantity is zero (`fill = min` picked the taker's side), so the
source loop's next iteration exits at its `remaining_quantity == 0` check;
the corresponding branch below returns directly. -/

/-- `if let Some(metadata) = order_index.get(&id) { metadata.status == Cancelled }`:
does the index mark this order id as cancelled? -/
def isCancelledIn (idx : Idx) (oid : Nat) : Bool :=
  match idxGet idx oid with
  | some m => decide (m.status = OrderStatus.Cancelled)
  | none => false

/-- Result of the per-level matching loop. -/
structure LoopResult where
  taker : Order
  orders : List Order
  total : Nat
  index : Idx
  nextTid : Nat
  trades : List Trade
deriving DecidableEq, Repr

/-- The common per-level matching loop of `match_buy_order` /
`match_sell_order` (see the section comment above). -/
def matchLoop (taker : Order) (orders : List Order) (total : Nat) (idx : Idx)
    (tid : Nat) (now : Nat) : LoopResult :=
  if taker.remaining_quantity = 0 then
    ⟨taker, orders, total, idx, tid, []⟩
  else
    match orders with
    | [] => ⟨taker, [], total, idx, tid, []⟩
    | maker :: rest =>
      if isCancelledIn idx maker.id then
        -- cancelled at the front: popped raw, cached total untouched
        matchLoop taker rest total idx tid now
      else if maker.user_id = taker.user_id then
        -- self-trade prevention: `break` out of the level loop
        ⟨taker, maker :: rest, total, idx, tid, []⟩
      else
        let fill := min taker.remaining_quantity maker.remaining_quantity
        let trade : Trade :=
          { id := tid
            taker_order_id := taker.id
            maker_order_id := maker.id
            taker_user_id := taker.user_id
            maker_user_id := maker.user_id
            market_id := maker.market_id
            outcome_id := maker.outcome_id
            price := maker.price
            quantity := fill
            timestamp := now
            taker_side := taker.side }
        let taker' := { taker with remaining_quantity := taker.remaining_quantity - fill }
        let newMakerRem := maker.remaining_quantity - fill
        let makerStatus :=
          if newMakerRem = 0 then OrderStatus.Filled else OrderStatus.PartiallyFilled
        let maker' := { maker with remaining_quantity := newMakerRem, status := makerStatus }
        -- `level.update_quantity(fill_quantity)` (saturating)
        let total' := total - fill
        let idx' := idxUpdate idx maker.id fun m =>
          { m with remaining_quantity := newMakerRem, status := makerStatus }
        if newMakerRem = 0 then
          -- fully filled maker: `level.pop_front()` subtracts its (now zero) remaining
          let r := matchLoop taker' rest (total' - newMakerRem) idx' (tid + 1) now
          ⟨r.taker, r.orders, r.total, r.index, r.nextTid, trade :: r.trades⟩
        else
          -- taker exhausted (`fill = taker.remaining_quantity`): next loop
          -- iteration breaks at the `remaining_quantity == 0` check
          ⟨taker', maker' :: rest, total', idx', tid + 1, [trade]⟩

/-- Result of sweeping the collected crossing price levels. -/
structure SweepResult where
  taker : Order
  book : PMap
  index : Idx
  nextTid : Nat
  trades : List Trade
deriving DecidableEq, Repr

/-- The `for price in price_levels` sweep shared by `match_buy_order` and
`match_sell_order`: run the level loop at each collected price in turn,
write the level back, and drop it if it ended empty. -/
def matchSweep (taker : Order) (prices : List Nat) (book : PMap) (idx : Idx)
    (tid : Nat) (now : Nat) : SweepResult :=
  match prices with
  | [] => ⟨taker, book, idx, tid, []⟩
  | p :: ps =>
    if taker.remaining_quantity = 0 then
      ⟨taker, book, idx, tid, []⟩
    else
      match pmGet book p with
      | none =>
          -- the inner loop breaks immediately; no empty-level removal fires
          matchSweep taker ps book idx tid now
      | some q =>
          let r := matchLoop taker q.orders q.total_quantity idx tid now
          let book' := pmSet book p ⟨r.orders, r.total⟩
          -- `if asks.get(&price).is_some_and(|l| l.is_empty()) { asks.remove(&price); }`
          let book'' := if r.orders.isEmpty then pmErase book' p else book'
          let s := matchSweep r.taker ps book'' r.index r.nextTid now
          ⟨s.taker, s.book, s.index, s.nextTid, r.trades ++ s.trades⟩

/-- The post-matching taker status update shared by both match functions
(src/lib.rs lines 612-617 and 750-755). -/
def finishTaker (o : Order) : Order :=
  if o.remaining_quantity = 0 then { o with status := OrderStatus.Filled }
  else if o.remaining_quantity < o.original_quantity then
    { o with status := OrderStatus.PartiallyFilled }
  else o

namespace OrderBook

/-- `OrderBook::new`. -/
def new (market_id outcome_id : String) : OrderBook :=
  { market_id := market_id
    outcome_id := outcome_id
    bids := []
    asks := []
    order_index := []
    next_trade_id := 1
    total_trades := 0
    total_volume := 0 }

/-- `OrderBook::best_bid`: `bids.keys().next_back()`. -/
def best_bid (b : OrderBook) : Option Nat := pmLastKey b.bids

/-- `OrderBook::best_ask`: `asks.keys().next()`. -/
def best_ask (b : OrderBook) : Option Nat := pmFirstKey b.asks

/-- `OrderBook::bid_quantity_at`. -/
def bid_quantity_at (b : OrderBook) (price : Nat) : Nat :=
  ((pmGet b.bids price).map PriceLevelQueue.total_quantity).getD 0

/-- `OrderBook::ask_quantity_at`. -/
def ask_quantity_at (b : OrderBook) (price : Nat) : Nat :=
  ((pmGet b.asks price).map PriceLevelQueue.total_quantity).getD 0

/-- `OrderBook::get_order_status`. -/
def get_order_status (b : OrderBook) (order_id : Nat) : Option OrderStatus :=
  (idxGet b.order_index order_id).map OrderMetadata.status

/-- `OrderBook::get_order_remaining`. -/
def get_order_remaining (b : OrderBook) (order_id : Nat) : Option Nat :=
  (idxGet b.order_index order_id).map OrderMetadata.remaining_quantity

/-- `OrderBook::match_buy_order` (src/lib.rs lines 484-618); `now` stands in
for the `SystemTime::now()` trade timestamps. -/
def match_buy_order (b : OrderBook) (order : Order) (now : Nat) :
    OrderBook × Order × List Trade :=
  let prices := (pmKeys b.asks).filter fun p => decide (p ≤ order.price)
  let r := matchSweep order prices b.asks b.order_index b.next_trade_id now
  ({ b with asks := r.book, order_index := r.index, next_trade_id := r.nextTid },
   finishTaker r.taker, r.trades)

/-- `OrderBook::match_sell_order` (src/lib.rs lines 621-756):
`bids.keys().rev().filter(|p| p >= order.price)`. -/
def match_sell_order (b : OrderBook) (order : Order) (now : Nat) :
    OrderBook × Order × List Trade :=
  let prices := (pmKeys b.bids).reverse.filter fun p => decide (order.price ≤ p)
  let r := matchSweep order prices b.bids b.order_index b.next_trade_id now
  ({ b with bids := r.book, order_index := r.index, next_trade_id := r.nextTid },
   finishTaker r.taker, r.trades)

/-- `OrderBook::add_to_book`. -/
def add_to_book (b : OrderBook) (order : Order) : OrderBook :=
  let meta : OrderMetadata :=
    { price := order.price
      status := order.status
      remaining_quantity := order.remaining_quantity }
  let b' :=
    match order.side with
    | Side.Buy => { b with bids := pmPush b.bids order.price order }
    | Side.Sell => { b with asks := pmPush b.asks order.price order }
  { b' with order_index := idxInsert b'.order_index order.id meta }

/-- `OrderBook::process_limit_order`; `now` stands in for `SystemTime::now()`. -/
def process_limit_order (b : OrderBook) (order : Order) (now : Nat) :
    OrderBook × Except OrderBookError ProcessOrderResult :=
  if order.price = 0 then (b, Except.error OrderBookError.InvalidPrice)
  else if order.remaining_quantity = 0 then
    (b, Except.error OrderBookError.InvalidQuantity)
  else if order.market_id ≠ b.market_id ∨ order.outcome_id ≠ b.outcome_id then
    (b, Except.error OrderBookError.MarketMismatch)
  else if (idxGet b.order_index order.id).isSome then
    (b, Except.error (OrderBookError.DuplicateOrderId order.id))
  else
    let r :=
      match order.side with
      | Side.Buy => match_buy_order b order now
      | Side.Sell => match_sell_order b order now
    let b1 := r.1
    let o1 := r.2.1
    let trades := r.2.2
    let b2 := if 0 < o1.remaining_quantity then add_to_book b1 o1 else b1
    let b3 := { b2 with
      total_trades := b2.total_trades + trades.length
      total_volume := b2.total_volume + (trades.map Trade.quantity).sum }
    (b3, Except.ok ⟨trades, o1⟩)

/-- `OrderBook::cancel_order`. -/
def cancel_order (b : OrderBook) (order_id : Nat) :
    OrderBook × Except OrderBookError Unit :=
  match idxGet b.order_index order_id with
  | none => (b, Except.error (OrderBookError.OrderNotFound order_id))
  | some m =>
    match m.status with
    | OrderStatus.Cancelled =>
        (b, Except.error (OrderBookError.OrderAlreadyCancelled order_id))
    | OrderStatus.Filled =>
        (b, Except.error (OrderBookError.OrderAlreadyFilled order_id))
    | _ =>
        let m' := { m with status := OrderStatus.Cancelled, remaining_quantity := 0 }
        ({ b with order_index := idxInsert b.order_index order_id m' }, Except.ok ())

/-- `OrderBook::cleanup_cancelled_order` (src/lib.rs lines 822-857), including
its bids-before-asks search by price alone. -/
def cleanup_cancelled_order (b : OrderBook) (order_id : Nat) :
    OrderBook × Except OrderBookError Unit :=
  match idxGet b.order_index order_id with
  | none => (b, Except.error (OrderBookError.OrderNotFound order_id))
  | some m =>
    if m.status ≠ OrderStatus.Cancelled then (b, Except.ok ())
    else
      let price := m.price
      match pmGet b.bids price with
      | some level =>
          let orders' := level.orders.filter fun o => decide (o.id ≠ order_id)
          let total' := (orders'.map Order.remaining_quantity).sum
          let bids' := pmSet b.bids price ⟨orders', total'⟩
          let bids'' := if orders'.isEmpty then pmErase bids' price else bids'
          ({ b with bids := bids'', order_index := idxRemove b.order_index order_id },
           Except.ok ())
      | none =>
        match pmGet b.asks price with
        | some level =>
            let orders' := level.orders.filter fun o => decide (o.id ≠ order_id)
            let total' := (orders'.map Order.remaining_quantity).sum
            let asks' := pmSet b.asks price ⟨orders', total'⟩
            let asks'' := if orders'.isEmpty then pmErase asks' price else asks'
            ({ b with asks := asks'', order_index := idxRemove b.order_index order_id },
             Except.ok ())
        | none => (b, Except.ok ())

end OrderBook

/-! ## Command traces -/

/-- A legal command against the book; `now` supplies the external clock for
a submission's trade timestamps. -/
inductive Cmd where
  | submit (o : Order) (now : Nat)
  | cancel (id : Nat)
  | cleanup (id : Nat)
deriving DecidableEq, Repr

/-- One command step, collecting the trades a submission emitted. -/
def stepCmd (b : OrderBook) : Cmd → OrderBook × List Trade
  | Cmd.submit o now =>
      match OrderBook.process_limit_order b o now with
      | (b', Except.ok res) => (b', res.trades)
      | (b', Except.error _) => (b', [])
  | Cmd.cancel i => ((OrderBook.cancel_order b i).1, [])
  | Cmd.cleanup i => ((OrderBook.cleanup_cancelled_order b i).1, [])

/-- Run a command list, concatenating the emitted trade log. -/
def run (b : OrderBook) : List Cmd → OrderBook × List Trade
  | [] => (b, [])
  | c :: cs =>
      let s := stepCmd b c
      let t := run s.1 cs
      (t.1, s.2 ++ t.2)

end Clob

namespace Clob

/-! ## Lemmas about the order-index association list -/

theorem idxGet_idxInsert_self (idx : Idx) (k : Nat) (v : OrderMetadata) :
    idxGet (idxInsert idx k v) k = some v := by
  induction idx with
  | nil => simp [idxInsert, idxGet]
  | cons e rest ih =>
      obtain ⟨k', v'⟩ := e
      by_cases h : k' = k
      · subst h; simp [idxInsert, idxGet]
      · simp [idxInsert, idxGet, h, ih]

theorem idxGet_idxInsert_ne (idx : Idx) (k j : Nat) (v : OrderMetadata)
    (h : j ≠ k) : idxGet (idxInsert idx k v) j = idxGet idx j := by
  induction idx with
  | nil => simp [idxInsert, idxGet, Ne.symm h]
  | cons e rest ih =>
      obtain ⟨k', v'⟩ := e
      by_cases hk : k' = k
      · subst hk; simp [idxInsert, idxGet, Ne.symm h]
      · by_cases hj : k' = j
        · subst hj; simp [idxInsert, idxGet, hk, h]
        · simp [idxInsert, idxGet, hk, hj, ih]

theorem idxGet_idxRemove_ne (idx : Idx) (k j : Nat) (h : j ≠ k) :
    idxGet (idxRemove idx k) j = idxGet idx j := by
  induction idx with
  | nil => simp [idxRemove]
  | cons e rest ih =>
      obtain ⟨k', v'⟩ := e
      by_cases hk : k' = k
      · subst hk; simp [idxRemove, idxGet, Ne.symm h]
      · by_cases hj : k' = j
        · subst hj; simp [idxRemove, idxGet, hk, h]
        · simp [idxRemove, idxGet, hk, hj, ih]

theorem idxGet_idxUpdate_self (idx : Idx) (k : Nat) (f : OrderMetadata → OrderMetadata) :
    idxGet (idxUpdate idx k f) k = (idxGet idx k).map f := by
  induction idx with
  | nil => simp [idxUpdate, idxGet]
  | cons e rest ih =>
      obtain ⟨k', v'⟩ := e
      by_cases h : k' = k
      · subst h; simp [idxUpdate, idxGet]
      · simp [idxUpdate, idxGet, h, ih]

theorem idxGet_idxUpdate_ne (idx : Idx) (k j : Nat) (f : OrderMetadata → OrderMetadata)
    (h : j ≠ k) : idxGet (idxUpdate idx k f) j = idxGet idx j := by
  induction idx with
  | nil => simp [idxUpdate]
  | cons e rest ih =>
      obtain ⟨k', v'⟩ := e
      by_cases hk : k' = k
      · subst hk; simp [idxUpdate, idxGet, Ne.symm h]
      · by_cases hj : k' = j
        · subst hj; simp [idxUpdate, idxGet, hk, h]
        · simp [idxUpdate, idxGet, hk, hj, ih]

theorem isSome_idxGet_idxInsert (idx : Idx) (k j : Nat) (v : OrderMetadata)
    (h : (idxGet idx j).isSome) : (idxGet (idxInsert idx k v) j).isSome := by
  by_cases hj : j = k
  · subst hj; simp [idxGet_idxInsert_self]
  · rwa [idxGet_idxInsert_ne idx k j v hj]

theorem isSome_idxGet_idxUpdate (idx : Idx) (k j : Nat) (f : OrderMetadata → OrderMetadata)
    (h : (idxGet idx j).isSome) : (idxGet (idxUpdate idx k f) j).isSome := by
  by_cases hj : j = k
  · subst hj
    rw [idxGet_idxUpdate_self]
    simpa using h
  · rwa [idxGet_idxUpdate_ne idx k j f hj]

/-! ## Lemmas about the sorted price maps -/

/-- The key list of a price side is sorted strictly ascending. -/
def KSorted (m : PMap) : Prop := List.Chain' (· < ·) (pmKeys m)

instance instDecidableKSorted (m : PMap) : Decidable (KSorted m) := by
  unfold KSorted; infer_instance

theorem pmGet_eq_none_iff (m : PMap) (k : Nat) :
    pmGet m k = none ↔ k ∉ pmKeys m := by
  induction m with
  | nil => simp [pmGet, pmKeys]
  | cons e rest ih =>
      obtain ⟨k', v'⟩ := e
      by_cases h : k' = k
      · subst h; simp [pmGet, pmKeys]
      · simp [pmGet, pmKeys, h, Ne.symm h, ih]

theorem pmGet_isSome_iff (m : PMap) (k : Nat) :
    (pmGet m k).isSome ↔ k ∈ pmKeys m := by
  rw [← not_iff_not]
  simp [← pmGet_eq_none_iff m k, Option.isSome_iff_ne_none]

theorem pmGet_mem (m : PMap) (k : Nat) (q : PriceLevelQueue)
    (h : pmGet m k = some q) : (k, q) ∈ m := by
  induction m with
  | nil => simp [pmGet] at h
  | cons e rest ih =>
      obtain ⟨k', v'⟩ := e
      by_cases hk : k' = k
      · subst hk
        simp [pmGet] at h
        simp [h]
      · simp [pmGet, hk] at h
        exact List.mem_cons_of_mem _ (ih h)

theorem pmKeys_pmSet (m : PMap) (k : Nat) (v : PriceLevelQueue) :
    pmKeys (pmSet m k v) = pmKeys m := by
  induction m with
  | nil => simp [pmSet]
  | cons e rest ih =>
      obtain ⟨k', v'⟩ := e
      by_cases h : k' = k
      · subst h; simp [pmSet, pmKeys]
      · simpa [pmSet, pmKeys, h] using ih

theorem pmGet_pmSet_ne (m : PMap) (k j : Nat) (v : PriceLevelQueue) (h : j ≠ k) :
    pmGet (pmSet m k v) j = pmGet m j := by
  induction m with
  | nil => simp [pmSet]
  | cons e rest ih =>
      obtain ⟨k', v'⟩ := e
      by_cases hk : k' = k
      · subst hk; simp [pmSet, pmGet, Ne.symm h]
      · by_cases hj : k' = j
        · subst hj; simp [pmSet, pmGet, hk, h]
        · simp [pmSet, pmGet, hk, hj, ih]

theorem pmGet_pmErase_ne (m : PMap) (k j : Nat) (h : j ≠ k) :
    pmGet (pmErase m k) j = pmGet m j := by
  induction m with
  | nil => simp [pmErase]
  | cons e rest ih =>
      obtain ⟨k', v'⟩ := e
      by_cases hk : k' = k
      · subst hk; simp [pmErase, idxGet, pmGet, Ne.symm h]
      · by_cases hj : k' = j
        · subst hj; simp [pmErase, pmGet, hk, h]
        · simp [pmErase, pmGet, hk, hj, ih]

theorem pmKeys_pmErase_sublist (m : PMap) (k : Nat) :
    (pmKeys (pmErase m k)).Sublist (pmKeys m) := by
  induction m with
  | nil => simp [pmErase]
  | cons e rest ih =>
      obtain ⟨k', v'⟩ := e
      by_cases h : k' = k
      · subst h
        simp only [pmErase, if_pos rfl]
        exact (List.sublist_cons_self _ _)
      · simp only [pmErase, if_neg h, pmKeys, List.map_cons]
        exact List.Sublist.cons₂ _ ih

end Clob

namespace Clob

/-! ## First/last keys of sorted maps are minima/maxima -/

theorem listGetLast?_mem {l : List Nat} {a : Nat} (h : l.getLast? = some a) : a ∈ l := by
  obtain ⟨hne, rfl⟩ := List.mem_getLast?_eq_getLast h
  exact List.getLast_mem hne

theorem listLast_max :
    ∀ (l : List Nat), List.Chain' (· < ·) l → ∀ a, l.getLast? = some a →
      ∀ j ∈ l, j ≤ a := by
  intro l
  induction l with
  | nil =>
      intro _ a h
      simp at h
  | cons b t ih =>
      intro hs a h j hj
      cases t with
      | nil =>
          simp at h hj
          omega
      | cons c t' =>
          rw [List.getLast?_cons_cons] at h
          rcases List.mem_cons.1 hj with rfl | hj'
          · have hmem : a ∈ c :: t' := listGetLast?_mem h
            have hpair := List.chain'_iff_pairwise.1 hs
            have : j < a := (List.pairwise_cons.1 hpair).1 a hmem
            omega
          · exact ih (List.chain'_cons'.1 hs).2 a h j hj'

theorem listHead_min :
    ∀ (l : List Nat), List.Chain' (· < ·) l → ∀ a, l.head? = some a →
      ∀ j ∈ l, a ≤ j := by
  intro l hs a h j hj
  cases l with
  | nil => simp at h
  | cons b t =>
      simp at h
      subst h
      rcases List.mem_cons.1 hj with rfl | hj'
      · omega
      · have hpair := List.chain'_iff_pairwise.1 hs
        have := (List.pairwise_cons.1 hpair).1 j hj'
        omega

theorem pmLastKey_eq_getLast? (m : PMap) : pmLastKey m = (pmKeys m).getLast? := by
  induction m with
  | nil => rfl
  | cons e rest ih =>
      obtain ⟨k, v⟩ := e
      match rest, ih with
      | [], _ => rfl
      | e' :: rest', ih =>
          obtain ⟨k', v'⟩ := e'
          simpa [pmLastKey, pmKeys, List.getLast?_cons_cons] using ih

theorem pmFirstKey_eq_head? (m : PMap) : pmFirstKey m = (pmKeys m).head? := by
  cases m with
  | nil => rfl
  | cons e rest => obtain ⟨k, v⟩ := e; rfl

theorem pmLastKey_mem {m : PMap} {k : Nat} (h : pmLastKey m = some k) :
    k ∈ pmKeys m := by
  rw [pmLastKey_eq_getLast?] at h
  exact listGetLast?_mem h

theorem pmFirstKey_mem {m : PMap} {k : Nat} (h : pmFirstKey m = some k) :
    k ∈ pmKeys m := by
  rw [pmFirstKey_eq_head?] at h
  exact List.mem_of_mem_head? h

theorem le_pmLastKey {m : PMap} (hs : KSorted m) {k : Nat}
    (h : pmLastKey m = some k) : ∀ j ∈ pmKeys m, j ≤ k := by
  rw [pmLastKey_eq_getLast?] at h
  exact listLast_max (pmKeys m) hs k h

theorem pmFirstKey_le {m : PMap} (hs : KSorted m) {k : Nat}
    (h : pmFirstKey m = some k) : ∀ j ∈ pmKeys m, k ≤ j := by
  rw [pmFirstKey_eq_head?] at h
  exact listHead_min (pmKeys m) hs k h

theorem pmLastKey_eq_none_iff (m : PMap) : pmLastKey m = none ↔ m = [] := by
  rw [pmLastKey_eq_getLast?]
  cases m with
  | nil => simp [pmKeys]
  | cons e rest => simp [pmKeys, List.getLast?_eq_none_iff]

theorem pmFirstKey_eq_none_iff (m : PMap) : pmFirstKey m = none ↔ m = [] := by
  cases m with
  | nil => simp [pmFirstKey]
  | cons e rest => obtain ⟨k, v⟩ := e; simp [pmFirstKey]

/-! ## Sortedness preservation -/

theorem KSorted_pmSet (m : PMap) (k : Nat) (v : PriceLevelQueue) (hs : KSorted m) :
    KSorted (pmSet m k v) := by
  unfold KSorted
  rw [pmKeys_pmSet]
  exact hs

theorem KSorted_pmErase (m : PMap) (k : Nat) (hs : KSorted m) :
    KSorted (pmErase m k) := hs.sublist (pmKeys_pmErase_sublist m k)

theorem mem_pmKeys_pmPush {m : PMap} {p x : Nat} {o : Order}
    (h : x ∈ pmKeys (pmPush m p o)) : x = p ∨ x ∈ pmKeys m := by
  induction m with
  | nil =>
      simp [pmPush, pmKeys] at h
      exact Or.inl h
  | cons e rest ih =>
      obtain ⟨k, q⟩ := e
      by_cases h1 : p < k
      · simp only [pmPush, if_pos h1, pmKeys, List.map_cons, List.mem_cons] at h
        rcases h with rfl | h
        · exact Or.inl rfl
        · exact Or.inr (by simpa [pmKeys] using h)
      · by_cases h2 : p = k
        · subst h2
          simp [pmPush, h1, pmKeys] at h
          rcases h with h | h
          · exact Or.inl h
          · exact Or.inr (by simp [pmKeys, List.mem_cons]; right; exact h)
        · simp [pmPush, h1, h2, pmKeys] at h
          rcases h with h | h
          · exact Or.inr (by simp [pmKeys]; exact Or.inl h)
          · obtain ⟨v, hv⟩ := h
            have hx : x ∈ pmKeys (pmPush rest p o) := by
              simpa [pmKeys] using List.mem_map_of_mem Prod.fst hv
            rcases ih hx with h' | h'
            · exact Or.inl h'
            · exact Or.inr (by simp [pmKeys] at h' ⊢; right; exact h')

theorem KSorted_pmPush (m : PMap) (p : Nat) (o : Order) (hs : KSorted m) :
    KSorted (pmPush m p o) := by
  induction m with
  | nil => simp [KSorted, pmPush, pmKeys]
  | cons e rest ih =>
      obtain ⟨k, q⟩ := e
      by_cases h1 : p < k
      · unfold KSorted at hs ⊢
        simp only [pmPush, if_pos h1, pmKeys, List.map_cons]
        rw [List.chain'_cons]
        exact ⟨h1, hs⟩
      · by_cases h2 : p = k
        · unfold KSorted at hs ⊢
          simpa [pmPush, h1, h2, pmKeys] using hs
        · have hk : k < p := by omega
          unfold KSorted at hs ⊢
          simp only [pmPush, if_neg h1, if_neg h2, pmKeys, List.map_cons]
          simp only [pmKeys, List.map_cons] at hs
          have hs' := hs
          rw [List.chain'_cons'] at hs'
          rw [List.chain'_cons']
          have htail : KSorted (pmPush rest p o) := ih hs'.2
          refine ⟨?_, htail⟩
          intro b hb
          have hbmem : b ∈ pmKeys (pmPush rest p o) :=
            List.mem_of_mem_head? (by simpa [pmKeys] using hb)
          rcases mem_pmKeys_pmPush hbmem with rfl | hbr
          · exact hk
          · have hpair := List.chain'_iff_pairwise.1 hs
            exact (List.pairwise_cons.1 hpair).1 b (by simpa [pmKeys] using hbr)

end Clob

namespace Clob

/-! ## Claim C10: saturating level-total bookkeeping -/

/-- C10: for every queue state, `pop_front` and `update_quantity` are total
operations that subtract from the cached `total_quantity` with saturating
subtraction: the result never exceeds the previous total, and when the
subtrahend is at least the cached total the result is exactly 0 (no
underflow or wraparound), even when the cached total is smaller than the
amount subtracted. -/
theorem C10_saturating_level_totals :
    (∀ (q : PriceLevelQueue) (filled : Nat),
        (q.update_quantity filled).orders = q.orders
      ∧ (q.update_quantity filled).total_quantity = q.total_quantity - filled
      ∧ (q.update_quantity filled).total_quantity ≤ q.total_quantity
      ∧ (q.total_quantity ≤ filled → (q.update_quantity filled).total_quantity = 0))
  ∧ (∀ q : PriceLevelQueue, q.orders = [] → q.pop_front = (none, q))
  ∧ (∀ (q : PriceLevelQueue) (o : Order) (rest : List Order),
        q.orders = o :: rest →
        q.pop_front = (some o, ⟨rest, q.total_quantity - o.remaining_quantity⟩)
      ∧ (q.pop_front).2.total_quantity ≤ q.total_quantity) := by
  refine ⟨fun q filled => ⟨rfl, rfl, Nat.sub_le _ _, fun h => Nat.sub_eq_zero_of_le h⟩,
    fun q h => ?_, fun q o rest h => ?_⟩
  · obtain ⟨os, t⟩ := q
    simp only at h
    subst h
    rfl
  · obtain ⟨os, t⟩ := q
    simp only at h
    subst h
    exact ⟨rfl, Nat.sub_le _ _⟩

/-- Witness for C10 at concrete inputs. -/
theorem C10_saturating_level_totals_witness :
    ((⟨[], 5⟩ : PriceLevelQueue).update_quantity 9).total_quantity = 0
    ∧ (⟨[], 7⟩ : PriceLevelQueue).pop_front = (none, ⟨[], 7⟩) :=
  ⟨(C10_saturating_level_totals.1 ⟨[], 5⟩ 9).2.2.2 (by decide),
   C10_saturating_level_totals.2.1 ⟨[], 7⟩ rfl⟩

/-! ## Claim C6: validation rejections leave the book unchanged -/

/-- C6: `process_limit_order` rejects, in validation order, with
`InvalidPrice` when `price == 0`, `InvalidQuantity` when
`remaining_quantity == 0`, `MarketMismatch` when the order's market/outcome
differ from the book's, and `DuplicateOrderId` when the id is already in the
order index; and every rejection returns the book completely unchanged. -/
theorem C6_validation_rejects_unchanged (b : OrderBook) (o : Order) (now : Nat) :
    (o.price = 0 →
      OrderBook.process_limit_order b o now
        = (b, Except.error OrderBookError.InvalidPrice))
  ∧ (o.price ≠ 0 → o.remaining_quantity = 0 →
      OrderBook.process_limit_order b o now
        = (b, Except.error OrderBookError.InvalidQuantity))
  ∧ (o.price ≠ 0 → o.remaining_quantity ≠ 0 →
      (o.market_id ≠ b.market_id ∨ o.outcome_id ≠ b.outcome_id) →
      OrderBook.process_limit_order b o now
        = (b, Except.error OrderBookError.MarketMismatch))
  ∧ (o.price ≠ 0 → o.remaining_quantity ≠ 0 →
      o.market_id = b.market_id → o.outcome_id = b.outcome_id →
      (idxGet b.order_index o.id).isSome →
      OrderBook.process_limit_order b o now
        = (b, Except.error (OrderBookError.DuplicateOrderId o.id)))
  ∧ (∀ (b' : OrderBook) (e : OrderBookError),
      OrderBook.process_limit_order b o now = (b', Except.error e) → b' = b) := by
  refine ⟨fun h1 => ?_, fun h1 h2 => ?_, fun h1 h2 h3 => ?_, fun h1 h2 h3 h4 h5 => ?_, ?_⟩
  · simp [OrderBook.process_limit_order, h1]
  · simp [OrderBook.process_limit_order, h1, h2]
  · simp [OrderBook.process_limit_order, h1, h2, h3]
  · simp [OrderBook.process_limit_order, h1, h2, h3, h4, h5]
  · intro b' e h
    by_cases h1 : o.price = 0
    · simp [OrderBook.process_limit_order, h1] at h
      exact h.1.symm
    · by_cases h2 : o.remaining_quantity = 0
      · simp [OrderBook.process_limit_order, h1, h2] at h
        exact h.1.symm
      · by_cases h3 : o.market_id ≠ b.market_id ∨ o.outcome_id ≠ b.outcome_id
        · simp [OrderBook.process_limit_order, h1, h2, h3] at h
          exact h.1.symm
        · by_cases h4 : (idxGet b.order_index o.id).isSome
          · push_neg at h3
            simp [OrderBook.process_limit_order, h1, h2, h3.1, h3.2, h4] at h
            exact h.1.symm
          · push_neg at h3
            simp [OrderBook.process_limit_order, h1, h2, h3.1, h3.2, h4] at h

/-- Witness for C6: each rejection at a concrete input, via the theorem. -/
theorem C6_validation_rejects_unchanged_witness :
    (OrderBook.process_limit_order (OrderBook.new "m" "Y")
        { id := 1, user_id := "u", market_id := "m", outcome_id := "Y",
          side := Side.Buy, price := 0, original_quantity := 5,
          remaining_quantity := 5, timestamp := 0, status := OrderStatus.Open } 0
      = (OrderBook.new "m" "Y", Except.error OrderBookError.InvalidPrice))
    ∧ (OrderBook.process_limit_order (OrderBook.new "m" "Y")
        { id := 1, user_id := "u", market_id := "m2", outcome_id := "Y",
          side := Side.Buy, price := 10, original_quantity := 5,
          remaining_quantity := 5, timestamp := 0, status := OrderStatus.Open } 0
      = (OrderBook.new "m" "Y", Except.error OrderBookError.MarketMismatch)) :=
  ⟨(C6_validation_rejects_unchanged (OrderBook.new "m" "Y") _ 0).1 rfl,
   (C6_validation_rejects_unchanged (OrderBook.new "m" "Y") _ 0).2.2.1
      (by decide) (by decide) (Or.inl (by decide))⟩

end Clob

namespace Clob

/-! ## Claim C7: `cancel_order` semantics -/

/-- C7: `cancel_order(id)` returns `OrderNotFound` iff the id is absent from
the order index, `OrderAlreadyCancelled` iff its status is `Cancelled`,
`OrderAlreadyFilled` iff its status is `Filled`; otherwise it succeeds,
setting that index entry's status to `Cancelled` and remaining quantity to 0
while leaving every other index entry, both level maps (hence every level
queue and cached total, so the order is not removed from its level queue),
the trade counter and the statistics unchanged; and every error leaves the
book unchanged. -/
theorem C7_cancel_order_spec (b : OrderBook) (i : Nat) :
    ((OrderBook.cancel_order b i).2
        = Except.error (OrderBookError.OrderNotFound i)
      ↔ idxGet b.order_index i = none)
  ∧ ((OrderBook.cancel_order b i).2
        = Except.error (OrderBookError.OrderAlreadyCancelled i)
      ↔ ∃ m, idxGet b.order_index i = some m ∧ m.status = OrderStatus.Cancelled)
  ∧ ((OrderBook.cancel_order b i).2
        = Except.error (OrderBookError.OrderAlreadyFilled i)
      ↔ ∃ m, idxGet b.order_index i = some m ∧ m.status = OrderStatus.Filled)
  ∧ (∀ m, idxGet b.order_index i = some m →
      m.status ≠ OrderStatus.Cancelled → m.status ≠ OrderStatus.Filled →
        (OrderBook.cancel_order b i).2 = Except.ok ()
      ∧ (OrderBook.cancel_order b i).1.bids = b.bids
      ∧ (OrderBook.cancel_order b i).1.asks = b.asks
      ∧ (OrderBook.cancel_order b i).1.next_trade_id = b.next_trade_id
      ∧ (OrderBook.cancel_order b i).1.total_trades = b.total_trades
      ∧ (OrderBook.cancel_order b i).1.total_volume = b.total_volume
      ∧ idxGet (OrderBook.cancel_order b i).1.order_index i
          = some ⟨m.price, OrderStatus.Cancelled, 0⟩
      ∧ ∀ j, j ≠ i → idxGet (OrderBook.cancel_order b i).1.order_index j
          = idxGet b.order_index j)
  ∧ (∀ e, (OrderBook.cancel_order b i).2 = Except.error e →
      (OrderBook.cancel_order b i).1 = b) := by
  cases hidx : idxGet b.order_index i with
  | none =>
      refine ⟨by simp [OrderBook.cancel_order, hidx], ?_, ?_, ?_, ?_⟩
      · simp [OrderBook.cancel_order, hidx]
      · simp [OrderBook.cancel_order, hidx]
      · intro m hm
        exact absurd hm (by simp)
      · intro e _
        simp [OrderBook.cancel_order, hidx]
  | some m =>
      cases hst : m.status with
      | Cancelled =>
          refine ⟨?_, ?_, ?_, ?_, ?_⟩
          · simp [OrderBook.cancel_order, hidx, hst]
          · simp [OrderBook.cancel_order, hidx, hst]
          · simp only [OrderBook.cancel_order, hidx, hst]
            simp [hidx, hst]
          · intro m' hm'
            obtain rfl : m = m' := by simpa using hm'
            intro hc _
            exact absurd hst hc
          · intro e _
            simp [OrderBook.cancel_order, hidx, hst]
      | Filled =>
          refine ⟨?_, ?_, ?_, ?_, ?_⟩
          · simp [OrderBook.cancel_order, hidx, hst]
          · simp [OrderBook.cancel_order, hidx, hst]
          · simp only [OrderBook.cancel_order, hidx, hst]
            simp [hidx, hst]
          · intro m' hm'
            obtain rfl : m = m' := by simpa using hm'
            intro _ hf
            exact absurd hst hf
          · intro e _
            simp [OrderBook.cancel_order, hidx, hst]
      | Open =>
          refine ⟨?_, ?_, ?_, ?_, ?_⟩
          · simp [OrderBook.cancel_order, hidx, hst]
          · simp [OrderBook.cancel_order, hidx, hst]
          · simp [OrderBook.cancel_order, hidx, hst]
          · intro m' hm'
            obtain rfl : m = m' := by simpa using hm'
            intro _ _
            refine ⟨by simp [OrderBook.cancel_order, hidx, hst],
              by simp [OrderBook.cancel_order, hidx, hst],
              by simp [OrderBook.cancel_order, hidx, hst],
              by simp [OrderBook.cancel_order, hidx, hst],
              by simp [OrderBook.cancel_order, hidx, hst],
              by simp [OrderBook.cancel_order, hidx, hst], ?_, ?_⟩
            · simp only [OrderBook.cancel_order, hidx, hst]
              simp [idxGet_idxInsert_self]
            · intro j hj
              simp only [OrderBook.cancel_order, hidx, hst]
              simp [idxGet_idxInsert_ne b.order_index i j _ hj]
          · intro e he
            simp [OrderBook.cancel_order, hidx, hst] at he
      | PartiallyFilled =>
          refine ⟨?_, ?_, ?_, ?_, ?_⟩
          · simp [OrderBook.cancel_order, hidx, hst]
          · simp [OrderBook.cancel_order, hidx, hst]
          · simp [OrderBook.cancel_order, hidx, hst]
          · intro m' hm'
            obtain rfl : m = m' := by simpa using hm'
            intro _ _
            refine ⟨by simp [OrderBook.cancel_order, hidx, hst],
              by simp [OrderBook.cancel_order, hidx, hst],
              by simp [OrderBook.cancel_order, hidx, hst],
              by simp [OrderBook.cancel_order, hidx, hst],
              by simp [OrderBook.cancel_order, hidx, hst],
              by simp [OrderBook.cancel_order, hidx, hst], ?_, ?_⟩
            · simp only [OrderBook.cancel_order, hidx, hst]
              simp [idxGet_idxInsert_self]
            · intro j hj
              simp only [OrderBook.cancel_order, hidx, hst]
              simp [idxGet_idxInsert_ne b.order_index i j _ hj]
          · intro e he
            simp [OrderBook.cancel_order, hidx, hst] at he

end Clob

namespace Clob

instance instDecidableEqExcept {ε α : Type} [DecidableEq ε] [DecidableEq α] :
    DecidableEq (Except ε α) := fun x y =>
  match x, y with
  | Except.ok a, Except.ok b =>
      if h : a = b then isTrue (by rw [h]) else isFalse (by simp [h])
  | Except.ok _, Except.error _ => isFalse fun hh => Except.noConfusion hh
  | Except.error _, Except.ok _ => isFalse fun hh => Except.noConfusion hh
  | Except.error e, Except.error f =>
      if h : e = f then isTrue (by rw [h]) else isFalse (by simp [h])

/-- `Order::with_timestamp` (src/lib.rs): create an order with an explicit
timestamp; status starts `Open`, remaining equals the original quantity. -/
def Order.with_timestamp (id : Nat) (user_id market_id outcome_id : String)
    (side : Side) (price quantity timestamp : Nat) : Order :=
  { id := id, user_id := user_id, market_id := market_id, outcome_id := outcome_id,
    side := side, price := price, original_quantity := quantity,
    remaining_quantity := quantity, timestamp := timestamp,
    status := OrderStatus.Open }

/-! ## Claim C1: self-trade prevention — counterexample to "halt entirely" -/

/-- Book holding alice's ask 100@5000 (id 1) and bob's ask 100@5100 (id 2). -/
def c1Base : OrderBook :=
  (OrderBook.process_limit_order
    ((OrderBook.process_limit_order (OrderBook.new "m" "Y")
        (Order.with_timestamp 1 "alice" "m" "Y" Side.Sell 5000 100 1) 0).1)
    (Order.with_timestamp 2 "bob" "m" "Y" Side.Sell 5100 100 2) 0).1

/-- C1 counterexample: alice submits a buy crossing both ask levels; matching
reaches her own order at the front of the first level (5000), yet — contrary
to the claim that matching halts at that price tier entirely, emitting no
trades from any later price level — the engine advances to the next level and
emits a trade at 5100 against bob. -/
theorem C1_counterexample :
    ((pmGet c1Base.asks 5000).map fun q => q.orders.map Order.user_id)
      = some ["alice"]
    ∧ ((OrderBook.process_limit_order c1Base
          (Order.with_timestamp 3 "alice" "m" "Y" Side.Buy 5100 100 3) 0).2.toOption.map
        fun res => res.trades.map fun t => (t.price, t.quantity, t.maker_order_id))
      = some [(5100, 100, 2)] := by decide

/-! ## Claim C2: no crossed book — counterexample via a self-trade halt -/

/-- Book after u1 posts an ask 100@5000 and then a buy 100@5000: the buy
halts on u1's own ask and its residual rests at bid 5000. -/
def c2Book : OrderBook :=
  (OrderBook.process_limit_order
    ((OrderBook.process_limit_order (OrderBook.new "m" "Y")
        (Order.with_timestamp 1 "u1" "m" "Y" Side.Sell 5000 100 1) 0).1)
    (Order.with_timestamp 2 "u1" "m" "Y" Side.Buy 5000 100 2) 0).1

/-- C2 counterexample: after two legal submissions both `best_bid` and
`best_ask` are defined and equal (5000), so `best_bid < best_ask` fails. -/
theorem C2_counterexample :
    OrderBook.best_bid c2Book = some 5000
    ∧ OrderBook.best_ask c2Book = some 5000
    ∧ ¬ (5000 : Nat) < 5000 := by decide

/-! ## Claim C3: level totals vs survivor sums — counterexample -/

/-- Book with asks 100@5000 from u1 (id 1) and u2 (id 2), after `cancel_order 1`. -/
def c3Book : OrderBook :=
  (OrderBook.cancel_order
    (OrderBook.process_limit_order
      ((OrderBook.process_limit_order (OrderBook.new "m" "Y")
          (Order.with_timestamp 1 "u1" "m" "Y" Side.Sell 5000 100 1) 0).1)
      (Order.with_timestamp 2 "u2" "m" "Y" Side.Sell 5000 100 2) 0).1 1).1

/-- C3 counterexample: after the cancellation the cached level total is still
200, while the sum of remaining quantities over the level's non-cancelled
members is 100 (and the cancelled member's index remaining is 0, so the
"cancelled-with-zero-remaining" reading gives the same 100): the claimed
equality fails. -/
theorem C3_counterexample :
    OrderBook.ask_quantity_at c3Book 5000 = 200
    ∧ ((pmGet c3Book.asks 5000).map fun q =>
        ((q.orders.filter fun o => ! isCancelledIn c3Book.order_index o.id).map
          Order.remaining_quantity).sum) = some 100
    ∧ OrderBook.get_order_remaining c3Book 1 = some 0
    ∧ ¬ (200 : Nat) = 100 := by decide

/-! ## Claim C4: order-id persistence — counterexample -/

/-- Book after a full fill: u1's ask 100@5000 (id 1) is taken out entirely by
u2's buy 100@5000 (id 2). -/
def c4FullFill : OrderBook :=
  (OrderBook.process_limit_order
    ((OrderBook.process_limit_order (OrderBook.new "m" "Y")
        (Order.with_timestamp 1 "u1" "m" "Y" Side.Sell 5000 100 1) 0).1)
    (Order.with_timestamp 2 "u2" "m" "Y" Side.Buy 5000 100 2) 0).1

/-- Book after submitting u1's ask (id 1), cancelling it and explicitly
cleaning it up, which removes id 1 from the order index. -/
def c4Cleaned : OrderBook :=
  (OrderBook.cleanup_cancelled_order
    ((OrderBook.cancel_order
      ((OrderBook.process_limit_order (OrderBook.new "m" "Y")
          (Order.with_timestamp 1 "u1" "m" "Y" Side.Sell 5000 100 1) 0).1) 1).1) 1).1

/-- C4 counterexample: (a) a taker filled completely on submission (id 2) is
never entered into the order index — `get_order_status` returns `none` and a
later submission reusing id 2 succeeds instead of being rejected with
`DuplicateOrderId`; (b) `cleanup_cancelled_order` removes a submitted id from
the index, after which the id is likewise unfindable and reusable. -/
theorem C4_counterexample :
    OrderBook.get_order_status c4FullFill 2 = none
    ∧ ((OrderBook.process_limit_order c4FullFill
          (Order.with_timestamp 2 "u3" "m" "Y" Side.Buy 4000 10 5) 0).2.toOption.isSome
        = true)
    ∧ OrderBook.get_order_status c4Cleaned 1 = none
    ∧ ((OrderBook.process_limit_order c4Cleaned
          (Order.with_timestamp 1 "u3" "m" "Y" Side.Buy 4000 10 5) 0).2.toOption.isSome
        = true) := by decide

/-! ## Claim C8: `cleanup_cancelled_order` — code bug at colliding prices -/

/-- Book with u1's cancelled ask 100@5000 (id 1) still resident while u1's
buy 100@5000 (id 2) rests on the bid side at the same price (reachable via
the self-trade halt), after `cancel_order 1`. -/
def c8Book : OrderBook :=
  (OrderBook.cancel_order
    ((OrderBook.process_limit_order
      ((OrderBook.process_limit_order (OrderBook.new "m" "Y")
          (Order.with_timestamp 1 "u1" "m" "Y" Side.Sell 5000 100 1) 0).1)
      (Order.with_timestamp 2 "u1" "m" "Y" Side.Buy 5000 100 2) 0).1) 1).1

/-- C8, code bug: `cleanup_cancelled_order(1)` reports success, but because it
searches the bid side first by price alone and a bid level exists at 5000, it
never touches the ask level that actually holds cancelled order 1: the order
remains physically in its level queue while its id is removed from the order
index (a "zombie" resident order with no index entry). -/
theorem C8_cleanup_wrong_side :
    (OrderBook.cleanup_cancelled_order c8Book 1).2 = Except.ok ()
    ∧ ((pmGet (OrderBook.cleanup_cancelled_order c8Book 1).1.asks 5000).map
        fun q => q.orders.map Order.id) = some [1]
    ∧ OrderBook.get_order_status (OrderBook.cleanup_cancelled_order c8Book 1).1 1
        = none := by decide

end Clob

namespace Clob

/-- A one-order book used to witness the `cancel_order` specification. -/
def c7Book : OrderBook :=
  { market_id := "m", outcome_id := "Y", bids := [],
    asks := [(5, ⟨[Order.with_timestamp 1 "u" "m" "Y" Side.Sell 5 3 0], 3⟩)],
    order_index := [(1, ⟨5, OrderStatus.Open, 3⟩)],
    next_trade_id := 1, total_trades := 0, total_volume := 0 }

/-- Witness for C7: cancelling the open order 1 succeeds, leaves the ask side
untouched and rewrites only its index entry. -/
theorem C7_cancel_order_spec_witness :
    (OrderBook.cancel_order c7Book 1).2 = Except.ok ()
    ∧ (OrderBook.cancel_order c7Book 1).1.asks = c7Book.asks
    ∧ idxGet (OrderBook.cancel_order c7Book 1).1.order_index 1
        = some ⟨5, OrderStatus.Cancelled, 0⟩ := by
  have h := (C7_cancel_order_spec c7Book 1).2.2.2.1 ⟨5, OrderStatus.Open, 3⟩
    (by decide) (by decide) (by decide)
  exact ⟨h.1, h.2.2.1, h.2.2.2.2.2.2.1⟩

/-! ## Claim C3 (amended): what maintains the cached level totals -/

/-- C3 (amended): neither cancellation nor the matcher's physical removal of a
cancelled order updates a cached level total.  `cancel_order` leaves both
price maps — hence every level queue and every cached `total_quantity` —
unchanged, and the per-level matching loop pops an indexed-`Cancelled` front
order without touching the running total it carries; the total is recomputed
to the survivor sum only by `cleanup_cancelled_order`.  Consequently a level's
cached total may exceed the sum of remaining quantities of its non-cancelled
members by the pre-cancel remaining quantities of unreclaimed cancelled
members, as `C3_counterexample` exhibits. -/
theorem C3_amended_totals_not_maintained_on_cancel :
    (∀ (b : OrderBook) (i : Nat) (b' : OrderBook) (r : Except OrderBookError Unit),
       OrderBook.cancel_order b i = (b', r) → b'.bids = b.bids ∧ b'.asks = b.asks)
  ∧ (∀ (idx : Idx) (q : PriceLevelQueue),
       (q.cleanup_cancelled idx).total_quantity = q.total_quantity)
  ∧ (∀ (taker maker : Order) (rest : List Order) (total : Nat) (idx : Idx)
       (tid now : Nat),
       taker.remaining_quantity ≠ 0 →
       isCancelledIn idx maker.id = true →
       matchLoop taker (maker :: rest) total idx tid now
         = matchLoop taker rest total idx tid now) := by
  refine ⟨?_, fun idx q => rfl, ?_⟩
  · intro b i b' r h
    unfold OrderBook.cancel_order at h
    cases hidx : idxGet b.order_index i with
    | none =>
        rw [hidx] at h
        cases h
        exact ⟨rfl, rfl⟩
    | some m =>
        obtain ⟨mp, ms, mr⟩ := m
        rw [hidx] at h
        cases ms <;> cases h <;> exact ⟨rfl, rfl⟩
  · intro taker maker rest total idx tid now h0 hc
    rw [matchLoop, if_neg h0, hc]
    simp

end Clob

namespace Clob

/-! ## Shape of the taker through matching -/

/-- The matching loop only ever changes the taker's `remaining_quantity`. -/
theorem matchLoop_taker_shape (os : List Order) :
    ∀ (t : Order) (total : Nat) (idx : Idx) (tid now : Nat),
      ∃ r, (matchLoop t os total idx tid now).taker
        = { t with remaining_quantity := r } := by
  induction os with
  | nil =>
      intro t total idx tid now
      by_cases h : t.remaining_quantity = 0
      · exact ⟨t.remaining_quantity, by rw [matchLoop, if_pos h]⟩
      · exact ⟨t.remaining_quantity, by rw [matchLoop, if_neg h]⟩
  | cons maker rest ih =>
      intro t total idx tid now
      by_cases h0 : t.remaining_quantity = 0
      · exact ⟨t.remaining_quantity, by rw [matchLoop, if_pos h0]⟩
      · by_cases hc : isCancelledIn idx maker.id = true
        · obtain ⟨r, hr⟩ := ih t total idx tid now
          exact ⟨r, by simp only [matchLoop, if_neg h0, hc, if_pos rfl]; exact hr⟩
        · by_cases hu : maker.user_id = t.user_id
          · exact ⟨t.remaining_quantity, by simp [matchLoop, h0, hc, hu]⟩
          · by_cases hm : maker.remaining_quantity
                - min t.remaining_quantity maker.remaining_quantity = 0
            · obtain ⟨r, hr⟩ := ih
                { t with remaining_quantity := t.remaining_quantity
                    - min t.remaining_quantity maker.remaining_quantity }
                (total - min t.remaining_quantity maker.remaining_quantity
                  - (maker.remaining_quantity
                      - min t.remaining_quantity maker.remaining_quantity))
                (idxUpdate idx maker.id fun m =>
                  { m with
                    remaining_quantity := maker.remaining_quantity
                      - min t.remaining_quantity maker.remaining_quantity
                    status :=
                      if maker.remaining_quantity
                          - min t.remaining_quantity maker.remaining_quantity = 0
                        then OrderStatus.Filled else OrderStatus.PartiallyFilled })
                (tid + 1) now
              refine ⟨r, ?_⟩
              simp only [matchLoop, if_neg h0, hc, Bool.false_eq_true, if_false, hu,
                if_neg hu, if_pos hm]
              simpa [hm] using hr
            · exact ⟨t.remaining_quantity
                - min t.remaining_quantity maker.remaining_quantity,
                by simp [matchLoop, h0, hc, hu, hm]⟩

/-- The level sweep only ever changes the taker's `remaining_quantity`. -/
theorem matchSweep_taker_shape (ps : List Nat) :
    ∀ (t : Order) (book : PMap) (idx : Idx) (tid now : Nat),
      ∃ r, (matchSweep t ps book idx tid now).taker
        = { t with remaining_quantity := r } := by
  induction ps with
  | nil =>
      intro t book idx tid now
      exact ⟨t.remaining_quantity, by simp [matchSweep]⟩
  | cons p rest ih =>
      intro t book idx tid now
      by_cases h0 : t.remaining_quantity = 0
      · exact ⟨t.remaining_quantity, by rw [matchSweep, if_pos h0]⟩
      · cases hq : pmGet book p with
        | none =>
            obtain ⟨r, hr⟩ := ih t book idx tid now
            exact ⟨r, by simp only [matchSweep, if_neg h0, hq]; exact hr⟩
        | some q =>
            obtain ⟨r1, hr1⟩ := matchLoop_taker_shape q.orders t q.total_quantity idx tid now
            obtain ⟨r2, hr2⟩ := ih (matchLoop t q.orders q.total_quantity idx tid now).taker
              (if (matchLoop t q.orders q.total_quantity idx tid now).orders.isEmpty
                then pmErase (pmSet book p
                  ⟨(matchLoop t q.orders q.total_quantity idx tid now).orders,
                   (matchLoop t q.orders q.total_quantity idx tid now).total⟩) p
                else pmSet book p
                  ⟨(matchLoop t q.orders q.total_quantity idx tid now).orders,
                   (matchLoop t q.orders q.total_quantity idx tid now).total⟩)
              (matchLoop t q.orders q.total_quantity idx tid now).index
              (matchLoop t q.orders q.total_quantity idx tid now).nextTid now
            refine ⟨r2, ?_⟩
            simp only [matchSweep, if_neg h0, hq]
            rw [hr2, hr1]
  
/-- `finishTaker` only ever changes the taker's `status`. -/
theorem finishTaker_shape (o : Order) :
    ∃ s, finishTaker o = { o with status := s } := by
  unfold finishTaker
  by_cases h0 : o.remaining_quantity = 0
  · exact ⟨OrderStatus.Filled, by simp [h0]⟩
  · by_cases h1 : o.remaining_quantity < o.original_quantity
    · exact ⟨OrderStatus.PartiallyFilled, by simp [h0, h1]⟩
    · exact ⟨o.status, by simp [h0, h1]⟩

/-- The pushed order is a member of the level at its price. -/
theorem pmGet_pmPush_self (m : PMap) (p : Nat) (o : Order) :
    ∃ q, pmGet (pmPush m p o) p = some q ∧ o ∈ q.orders := by
  induction m with
  | nil => exact ⟨⟨[o], o.remaining_quantity⟩, by simp [pmPush, pmGet], by simp⟩
  | cons e rest ih =>
      obtain ⟨k, q'⟩ := e
      by_cases h1 : p < k
      · exact ⟨⟨[o], o.remaining_quantity⟩, by simp [pmPush, pmGet, h1], by simp⟩
      · by_cases h2 : p = k
        · subst h2
          exact ⟨⟨q'.orders ++ [o], q'.total_quantity + o.remaining_quantity⟩,
            by simp [pmPush, pmGet, h1], by simp⟩
        · obtain ⟨q'', hq, ho⟩ := ih
          exact ⟨q'', by simp [pmPush, pmGet, h1, h2, Ne.symm h2]; exact hq, ho⟩

end Clob

namespace Clob

/-- On a submission that passes all four validations, `process_limit_order`
matches, inserts the positive residual, updates the statistics and returns
the trades with the finished taker. -/
theorem process_limit_order_ok_eq (b : OrderBook) (o : Order) (now : Nat)
    (h1 : o.price ≠ 0) (h2 : o.remaining_quantity ≠ 0)
    (h3m : o.market_id = b.market_id) (h3o : o.outcome_id = b.outcome_id)
    (h4 : idxGet b.order_index o.id = none) :
    OrderBook.process_limit_order b o now
      = (let r := match o.side with
          | Side.Buy => OrderBook.match_buy_order b o now
          | Side.Sell => OrderBook.match_sell_order b o now
         let b2 := if 0 < r.2.1.remaining_quantity
          then OrderBook.add_to_book r.1 r.2.1 else r.1
         ({ b2 with
            total_trades := b2.total_trades + r.2.2.length
            total_volume := b2.total_volume + (r.2.2.map Trade.quantity).sum },
          Except.ok ⟨r.2.2, r.2.1⟩)) := by
  simp only [OrderBook.process_limit_order, if_neg h1, if_neg h2]
  rw [if_neg (by simp [h3m, h3o]), if_neg (by simp [h4])]

/-! ## Claim C1 (amended): the self-trade halt is per-level only -/

/-- C1 (amended): when the per-level loop reaches a front maker whose index
entry is not `Cancelled` and whose `user_id` equals the taker's, it halts at
that price level immediately — the taker, the level queue and total, the
index and the trade counter are returned unchanged and no trade is emitted
from that level (matching then proceeds to the next crossing price level,
where it may trade, as `C1_counterexample` shows); and whenever a submission
completes with positive remaining quantity, the taker's residual rests in the
book: the taker's own side holds a level at the taker's price containing an
order with the taker's id. -/
theorem C1_amended_self_trade_halts_level_only :
    (∀ (taker maker : Order) (rest : List Order) (total : Nat) (idx : Idx)
        (tid now : Nat),
      taker.remaining_quantity ≠ 0 →
      isCancelledIn idx maker.id = false →
      maker.user_id = taker.user_id →
      matchLoop taker (maker :: rest) total idx tid now
        = ⟨taker, maker :: rest, total, idx, tid, []⟩)
  ∧ (∀ (b : OrderBook) (o : Order) (now : Nat) (b' : OrderBook)
        (res : ProcessOrderResult),
      OrderBook.process_limit_order b o now = (b', Except.ok res) →
      0 < res.order.remaining_quantity →
      ∃ q, pmGet (match o.side with
            | Side.Buy => b'.bids
            | Side.Sell => b'.asks) res.order.price = some q
        ∧ ∃ mo, mo ∈ q.orders ∧ mo.id = o.id) := by
  constructor
  · intro taker maker rest total idx tid now h0 hc hu
    rw [matchLoop, if_neg h0]
    simp [hc, hu]
  · intro b o now b' res h hrem
    by_cases h1 : o.price = 0
    · simp [OrderBook.process_limit_order, h1] at h
    · by_cases h2 : o.remaining_quantity = 0
      · simp [OrderBook.process_limit_order, h1, h2] at h
      · by_cases h3 : o.market_id ≠ b.market_id ∨ o.outcome_id ≠ b.outcome_id
        · simp [OrderBook.process_limit_order, h1, h2, h3] at h
        · push_neg at h3
          by_cases h4 : (idxGet b.order_index o.id).isSome
          · simp [OrderBook.process_limit_order, h1, h2, h3.1, h3.2, h4] at h
          · rw [process_limit_order_ok_eq b o now h1 h2 h3.1 h3.2
              (by simpa [Option.isSome_iff_ne_none] using h4)] at h
            have hb' := congrArg Prod.fst h
            have hres := congrArg Prod.snd h
            simp only [Prod.fst, Prod.snd] at hb' hres
            cases hside : o.side with
            | Buy =>
                rw [hside] at hb' hres
                simp only [OrderBook.match_buy_order] at hb' hres
                simp only [Except.ok.injEq] at hres
                obtain ⟨rs, hrs⟩ := matchSweep_taker_shape
                  ((pmKeys b.asks).filter fun p => decide (p ≤ o.price))
                  o b.asks b.order_index b.next_trade_id now
                obtain ⟨st, hst0⟩ := finishTaker_shape
                  (matchSweep o ((pmKeys b.asks).filter fun p => decide (p ≤ o.price))
                    b.asks b.order_index b.next_trade_id now).taker
                have ho1 : finishTaker
                    (matchSweep o ((pmKeys b.asks).filter fun p => decide (p ≤ o.price))
                      b.asks b.order_index b.next_trade_id now).taker
                    = { o with remaining_quantity := rs, status := st } := by
                  rw [hst0, hrs]
                rw [← hres] at hrem ⊢
                simp only at hrem ⊢
                rw [ho1] at hrem hb' ⊢
                simp only at hrem ⊢
                rw [if_pos (by simpa using hrem)] at hb'
                rw [← hb']
                simp only [OrderBook.add_to_book, hside]
                obtain ⟨q, hq, hmem⟩ := pmGet_pmPush_self b.bids o.price
                  { o with side := Side.Buy, remaining_quantity := rs, status := st }
                exact ⟨q, by simpa using hq,
                  { o with side := Side.Buy, remaining_quantity := rs, status := st },
                  hmem, rfl⟩
            | Sell =>
                rw [hside] at hb' hres
                simp only [OrderBook.match_sell_order] at hb' hres
                simp only [Except.ok.injEq] at hres
                obtain ⟨rs, hrs⟩ := matchSweep_taker_shape
                  ((pmKeys b.bids).reverse.filter fun p => decide (o.price ≤ p))
                  o b.bids b.order_index b.next_trade_id now
                obtain ⟨st, hst0⟩ := finishTaker_shape
                  (matchSweep o ((pmKeys b.bids).reverse.filter fun p => decide (o.price ≤ p))
                    b.bids b.order_index b.next_trade_id now).taker
                have ho1 : finishTaker
                    (matchSweep o ((pmKeys b.bids).reverse.filter fun p => decide (o.price ≤ p))
                      b.bids b.order_index b.next_trade_id now).taker
                    = { o with remaining_quantity := rs, status := st } := by
                  rw [hst0, hrs]
                rw [← hres] at hrem ⊢
                simp only at hrem ⊢
                rw [ho1] at hrem hb' ⊢
                simp only at hrem ⊢
                rw [if_pos (by simpa using hrem)] at hb'
                rw [← hb']
                simp only [OrderBook.add_to_book, hside]
                obtain ⟨q, hq, hmem⟩ := pmGet_pmPush_self b.asks o.price
                  { o with side := Side.Sell, remaining_quantity := rs, status := st }
                exact ⟨q, by simpa using hq,
                  { o with side := Side.Sell, remaining_quantity := rs, status := st },
                  hmem, rfl⟩

end Clob

namespace Clob

/-- Concrete resting maker for the C1 witness. -/
def c1wMaker : Order := Order.with_timestamp 1 "u1" "m" "Y" Side.Sell 5000 100 1

/-- Concrete same-user taker for the C1 witness. -/
def c1wTaker : Order := Order.with_timestamp 2 "u1" "m" "Y" Side.Buy 5000 100 2

/-- Concrete index for the C1 witness. -/
def c1wIdx : Idx := [(1, ⟨5000, OrderStatus.Open, 100⟩)]

/-- Concrete fresh buy order for the C1 witness residual part. -/
def c1wBuy : Order := Order.with_timestamp 7 "u9" "m" "Y" Side.Buy 5000 40 3

/-- Witness for the amended C1 at concrete inputs. -/
theorem C1_amended_self_trade_halts_level_only_witness :
    (matchLoop c1wTaker [c1wMaker] 100 c1wIdx 1 0
      = ⟨c1wTaker, [c1wMaker], 100, c1wIdx, 1, []⟩)
    ∧ (∃ q, pmGet (OrderBook.process_limit_order (OrderBook.new "m" "Y") c1wBuy 0).1.bids
          5000 = some q
        ∧ ∃ mo, mo ∈ q.orders ∧ mo.id = 7) := by
  constructor
  · exact C1_amended_self_trade_halts_level_only.1 c1wTaker c1wMaker [] 100 c1wIdx 1 0
      (by decide) (by decide) (by decide)
  · have h := C1_amended_self_trade_halts_level_only.2 (OrderBook.new "m" "Y") c1wBuy 0
      (OrderBook.process_limit_order (OrderBook.new "m" "Y") c1wBuy 0).1
      ⟨[], c1wBuy⟩ (by decide) (by decide)
    simpa [c1wBuy, Order.with_timestamp] using h

end Clob

namespace Clob

/-- Index marking order 1 as cancelled, for the C3 witness. -/
def c3wIdx : Idx := [(1, ⟨5000, OrderStatus.Cancelled, 0⟩)]

/-- Witness for the amended C3 at concrete inputs: cancelling the live order 2
in `c3Book` leaves both sides untouched, and the matching loop drops the
indexed-cancelled front maker without changing the running level total. -/
theorem C3_amended_totals_not_maintained_on_cancel_witness :
    ((OrderBook.cancel_order c3Book 2).1.bids = c3Book.bids
      ∧ (OrderBook.cancel_order c3Book 2).1.asks = c3Book.asks)
    ∧ matchLoop c1wTaker [c1wMaker] 100 c3wIdx 1 0
        = matchLoop c1wTaker [] 100 c3wIdx 1 0 :=
  ⟨C3_amended_totals_not_maintained_on_cancel.1 c3Book 2
      (OrderBook.cancel_order c3Book 2).1 (OrderBook.cancel_order c3Book 2).2 rfl,
   C3_amended_totals_not_maintained_on_cancel.2.2 c1wTaker c1wMaker [] 100 c3wIdx 1 0
      (by decide) (by decide)⟩

end Clob

namespace Clob

/-! ## Claim C9: trade-id density -/

theorem range'_append_nat (s m n : Nat) :
    List.range' s m ++ List.range' (s + m) n = List.range' s (m + n) := by
  have := List.range'_append s m n 1
  simp only [Nat.one_mul, Nat.mul_one] at this
  rw [Nat.add_comm m n]
  exact this

/-- The matching loop hands out trade ids consecutively from its starting
counter and returns the counter advanced by the number of trades emitted. -/
theorem matchLoop_trade_ids (os : List Order) :
    ∀ (t : Order) (total : Nat) (idx : Idx) (tid now : Nat),
      (matchLoop t os total idx tid now).trades.map Trade.id
        = List.range' tid (matchLoop t os total idx tid now).trades.length
      ∧ (matchLoop t os total idx tid now).nextTid
        = tid + (matchLoop t os total idx tid now).trades.length := by
  induction os with
  | nil =>
      intro t total idx tid now
      by_cases h : t.remaining_quantity = 0
      · rw [matchLoop, if_pos h]
        simp
      · rw [matchLoop, if_neg h]
        simp
  | cons maker rest ih =>
      intro t total idx tid now
      by_cases h0 : t.remaining_quantity = 0
      · rw [matchLoop, if_pos h0]
        simp
      · by_cases hc : isCancelledIn idx maker.id = true
        · simp only [matchLoop, if_neg h0, hc, if_pos rfl]
          exact ih t total idx tid now
        · by_cases hu : maker.user_id = t.user_id
          · simp only [matchLoop, if_neg h0, hc, Bool.false_eq_true, if_false, hu,
              if_pos rfl]
            simp
          · by_cases hm : maker.remaining_quantity
                - min t.remaining_quantity maker.remaining_quantity = 0
            · simp only [matchLoop, if_neg h0, hc, Bool.false_eq_true, if_false, hu,
                if_neg hu, if_pos hm]
              obtain ⟨hmap, htid⟩ := ih
                { t with remaining_quantity := t.remaining_quantity
                    - min t.remaining_quantity maker.remaining_quantity }
                (total - min t.remaining_quantity maker.remaining_quantity
                  - (maker.remaining_quantity
                      - min t.remaining_quantity maker.remaining_quantity))
                (idxUpdate idx maker.id fun m =>
                  { m with
                    remaining_quantity := maker.remaining_quantity
                      - min t.remaining_quantity maker.remaining_quantity
                    status := OrderStatus.Filled })
                (tid + 1) now
              constructor
              · simp only [List.map_cons, List.length_cons]
                rw [List.range'_succ]
                simp only [List.cons.injEq, true_and]
                exact hmap
              · simp only [List.length_cons]
                rw [htid]
                omega
            · simp only [matchLoop, if_neg h0, hc, Bool.false_eq_true, if_false, hu,
                if_neg hu, if_neg hm]
              simp [List.range'_one]

end Clob

namespace Clob

/-- The level sweep hands out trade ids consecutively from its starting
counter and returns the counter advanced by the number of trades emitted. -/
theorem matchSweep_trade_ids (ps : List Nat) :
    ∀ (t : Order) (book : PMap) (idx : Idx) (tid now : Nat),
      (matchSweep t ps book idx tid now).trades.map Trade.id
        = List.range' tid (matchSweep t ps book idx tid now).trades.length
      ∧ (matchSweep t ps book idx tid now).nextTid
        = tid + (matchSweep t ps book idx tid now).trades.length := by
  induction ps with
  | nil =>
      intro t book idx tid now
      rw [matchSweep]
      simp
  | cons p rest ih =>
      intro t book idx tid now
      by_cases h0 : t.remaining_quantity = 0
      · rw [matchSweep, if_pos h0]
        simp
      · cases hq : pmGet book p with
        | none =>
            simp only [matchSweep, if_neg h0, hq]
            exact ih t book idx tid now
        | some q =>
            simp only [matchSweep, if_neg h0, hq]
            obtain ⟨hmap1, htid1⟩ :=
              matchLoop_trade_ids q.orders t q.total_quantity idx tid now
            obtain ⟨hmap2, htid2⟩ := ih
              (matchLoop t q.orders q.total_quantity idx tid now).taker
              (if (matchLoop t q.orders q.total_quantity idx tid now).orders.isEmpty
                then pmErase (pmSet book p
                  ⟨(matchLoop t q.orders q.total_quantity idx tid now).orders,
                   (matchLoop t q.orders q.total_quantity idx tid now).total⟩) p
                else pmSet book p
                  ⟨(matchLoop t q.orders q.total_quantity idx tid now).orders,
                   (matchLoop t q.orders q.total_quantity idx tid now).total⟩)
              (matchLoop t q.orders q.total_quantity idx tid now).index
              (matchLoop t q.orders q.total_quantity idx tid now).nextTid now
            constructor
            · simp only [List.map_append, List.length_append]
              rw [hmap1, hmap2, htid1, range'_append_nat]
            · simp only [List.length_append]
              rw [htid2, htid1]
              omega

end Clob

namespace Clob

/-- `cancel_order` never changes the trade counter. -/
theorem cancel_order_next_trade_id (b : OrderBook) (i : Nat) :
    (OrderBook.cancel_order b i).1.next_trade_id = b.next_trade_id := by
  unfold OrderBook.cancel_order
  cases hidx : idxGet b.order_index i with
  | none => rfl
  | some m =>
      obtain ⟨mp, ms, mr⟩ := m
      cases ms <;> rfl

/-- `cleanup_cancelled_order` never changes the trade counter. -/
theorem cleanup_cancelled_order_next_trade_id (b : OrderBook) (i : Nat) :
    (OrderBook.cleanup_cancelled_order b i).1.next_trade_id = b.next_trade_id := by
  unfold OrderBook.cleanup_cancelled_order
  cases hidx : idxGet b.order_index i with
  | none => rfl
  | some m =>
      obtain ⟨mp, ms, mr⟩ := m
      cases ms with
      | Cancelled =>
          cases hb : pmGet b.bids mp with
          | some level => simp [hb]
          | none =>
              cases ha : pmGet b.asks mp with
              | some level => simp [hb, ha]
              | none => simp [hb, ha]
      | Open => rfl
      | PartiallyFilled => rfl
      | Filled => rfl

/-- One command step emits trades with consecutive ids starting at the book's
trade counter, and advances the counter by the number of trades emitted. -/
theorem stepCmd_trade_ids (b : OrderBook) (c : Cmd) :
    (stepCmd b c).2.map Trade.id
      = List.range' b.next_trade_id (stepCmd b c).2.length
    ∧ (stepCmd b c).1.next_trade_id = b.next_trade_id + (stepCmd b c).2.length := by
  cases c with
  | cancel i =>
      simp only [stepCmd]
      exact ⟨by simp, by simpa using cancel_order_next_trade_id b i⟩
  | cleanup i =>
      simp only [stepCmd]
      exact ⟨by simp, by simpa using cleanup_cancelled_order_next_trade_id b i⟩
  | submit o now =>
      by_cases h1 : o.price = 0
      · simp [stepCmd, OrderBook.process_limit_order, h1]
      · by_cases h2 : o.remaining_quantity = 0
        · simp [stepCmd, OrderBook.process_limit_order, h1, h2]
        · by_cases h3 : o.market_id ≠ b.market_id ∨ o.outcome_id ≠ b.outcome_id
          · simp [stepCmd, OrderBook.process_limit_order, h1, h2, h3]
          · push_neg at h3
            by_cases h4 : (idxGet b.order_index o.id).isSome
            · simp [stepCmd, OrderBook.process_limit_order, h1, h2, h3.1, h3.2, h4]
            · rw [stepCmd, process_limit_order_ok_eq b o now h1 h2 h3.1 h3.2
                (by simpa [Option.isSome_iff_ne_none] using h4)]
              cases hside : o.side with
              | Buy =>
                  simp only [OrderBook.match_buy_order, OrderBook.add_to_book]
                  obtain ⟨hmap, htid⟩ := matchSweep_trade_ids
                    ((pmKeys b.asks).filter fun p => decide (p ≤ o.price))
                    o b.asks b.order_index b.next_trade_id now
                  constructor
                  · exact hmap
                  · by_cases hrem : 0 < (finishTaker (matchSweep o
                        ((pmKeys b.asks).filter fun p => decide (p ≤ o.price))
                        b.asks b.order_index b.next_trade_id now).taker).remaining_quantity
                    · rw [if_pos hrem]
                      cases hside2 : (finishTaker (matchSweep o
                          ((pmKeys b.asks).filter fun p => decide (p ≤ o.price))
                          b.asks b.order_index b.next_trade_id now).taker).side <;>
                        simpa using htid
                    · rw [if_neg hrem]
                      simpa using htid
              | Sell =>
                  simp only [OrderBook.match_sell_order, OrderBook.add_to_book]
                  obtain ⟨hmap, htid⟩ := matchSweep_trade_ids
                    ((pmKeys b.bids).reverse.filter fun p => decide (o.price ≤ p))
                    o b.bids b.order_index b.next_trade_id now
                  constructor
                  · exact hmap
                  · by_cases hrem : 0 < (finishTaker (matchSweep o
                        ((pmKeys b.bids).reverse.filter fun p => decide (o.price ≤ p))
                        b.bids b.order_index b.next_trade_id now).taker).remaining_quantity
                    · rw [if_pos hrem]
                      cases hside2 : (finishTaker (matchSweep o
                          ((pmKeys b.bids).reverse.filter fun p => decide (o.price ≤ p))
                          b.bids b.order_index b.next_trade_id now).taker).side <;>
                        simpa using htid
                    · rw [if_neg hrem]
                      simpa using htid

/-- Running a command list emits the trade log with consecutive ids starting
at the book's trade counter. -/
theorem run_trade_ids (cs : List Cmd) :
    ∀ b : OrderBook,
      (run b cs).2.map Trade.id = List.range' b.next_trade_id (run b cs).2.length
      ∧ (run b cs).1.next_trade_id = b.next_trade_id + (run b cs).2.length := by
  induction cs with
  | nil =>
      intro b
      simp [run]
  | cons c rest ih =>
      intro b
      simp only [run]
      obtain ⟨h1, h2⟩ := stepCmd_trade_ids b c
      obtain ⟨h3, h4⟩ := ih (stepCmd b c).1
      constructor
      · simp only [List.map_append, List.length_append]
        rw [h1, h3, h2, range'_append_nat]
      · simp only [List.length_append]
        rw [h4, h2]
        omega

/-! ## Claim C9: trade ids are dense and strictly increasing from 1 -/

/-- C9: for every book and every sequence of legal commands run against it
from creation, the n-th trade ever emitted (in emission order, across all
submissions) carries id n: the emitted trade log's ids are exactly
`1, 2, …, length`. -/
theorem C9_trade_ids_dense (mkt out : String) (cs : List Cmd) :
    (run (OrderBook.new mkt out) cs).2.map Trade.id
      = List.range' 1 (run (OrderBook.new mkt out) cs).2.length := by
  have h := (run_trade_ids cs (OrderBook.new mkt out)).1
  simpa [OrderBook.new] using h

end Clob

namespace Clob

/-! ## Index-key persistence lemmas -/

/-- The matching loop never removes order-index keys. -/
theorem matchLoop_index_isSome (os : List Order) :
    ∀ (t : Order) (total : Nat) (idx : Idx) (tid now j : Nat),
      (idxGet idx j).isSome →
      (idxGet (matchLoop t os total idx tid now).index j).isSome := by
  induction os with
  | nil =>
      intro t total idx tid now j h
      by_cases h0 : t.remaining_quantity = 0
      · rw [matchLoop, if_pos h0]; exact h
      · rw [matchLoop, if_neg h0]; exact h
  | cons maker rest ih =>
      intro t total idx tid now j h
      by_cases h0 : t.remaining_quantity = 0
      · rw [matchLoop, if_pos h0]; exact h
      · by_cases hc : isCancelledIn idx maker.id = true
        · simp only [matchLoop, if_neg h0, hc, if_pos rfl]
          exact ih t total idx tid now j h
        · by_cases hu : maker.user_id = t.user_id
          · simp only [matchLoop, if_neg h0, hc, Bool.false_eq_true, if_false, hu,
              if_pos rfl]
            exact h
          · by_cases hm : maker.remaining_quantity
                - min t.remaining_quantity maker.remaining_quantity = 0
            · simp only [matchLoop, if_neg h0, hc, Bool.false_eq_true, if_false, hu,
                if_neg hu, if_pos hm]
              exact ih _ _ _ _ _ j (isSome_idxGet_idxUpdate idx maker.id j _ h)
            · simp only [matchLoop, if_neg h0, hc, Bool.false_eq_true, if_false, hu,
                if_neg hu, if_neg hm]
              exact isSome_idxGet_idxUpdate idx maker.id j _ h

end Clob

namespace Clob

/-- The level sweep never removes order-index keys. -/
theorem matchSweep_index_isSome (ps : List Nat) :
    ∀ (t : Order) (book : PMap) (idx : Idx) (tid now j : Nat),
      (idxGet idx j).isSome →
      (idxGet (matchSweep t ps book idx tid now).index j).isSome := by
  induction ps with
  | nil =>
      intro t book idx tid now j h
      rw [matchSweep]
      exact h
  | cons p rest ih =>
      intro t book idx tid now j h
      by_cases h0 : t.remaining_quantity = 0
      · rw [matchSweep, if_pos h0]; exact h
      · cases hq : pmGet book p with
        | none =>
            simp only [matchSweep, if_neg h0, hq]
            exact ih t book idx tid now j h
        | some q =>
            simp only [matchSweep, if_neg h0, hq]
            exact ih _ _ _ _ _ j
              (matchLoop_index_isSome q.orders t q.total_quantity idx tid now j h)

/-- `process_limit_order` never removes order-index keys. -/
theorem process_limit_order_index_isSome (b : OrderBook) (o : Order) (now j : Nat)
    (h : (idxGet b.order_index j).isSome) :
    (idxGet (OrderBook.process_limit_order b o now).1.order_index j).isSome := by
  by_cases h1 : o.price = 0
  · simpa [OrderBook.process_limit_order, h1] using h
  · by_cases h2 : o.remaining_quantity = 0
    · simpa [OrderBook.process_limit_order, h1, h2] using h
    · by_cases h3 : o.market_id ≠ b.market_id ∨ o.outcome_id ≠ b.outcome_id
      · simpa [OrderBook.process_limit_order, h1, h2, h3] using h
      · push_neg at h3
        by_cases h4 : (idxGet b.order_index o.id).isSome
        · simpa [OrderBook.process_limit_order, h1, h2, h3.1, h3.2, h4] using h
        · rw [process_limit_order_ok_eq b o now h1 h2 h3.1 h3.2
            (by simpa [Option.isSome_iff_ne_none] using h4)]
          cases hside : o.side with
          | Buy =>
              simp only [OrderBook.match_buy_order]
              have hsw := matchSweep_index_isSome
                ((pmKeys b.asks).filter fun p => decide (p ≤ o.price))
                o b.asks b.order_index b.next_trade_id now j h
              by_cases hrem : 0 < (finishTaker (matchSweep o
                  ((pmKeys b.asks).filter fun p => decide (p ≤ o.price))
                  b.asks b.order_index b.next_trade_id now).taker).remaining_quantity
              · rw [if_pos hrem]
                simp only [OrderBook.add_to_book]
                cases hside2 : (finishTaker (matchSweep o
                    ((pmKeys b.asks).filter fun p => decide (p ≤ o.price))
                    b.asks b.order_index b.next_trade_id now).taker).side <;>
                  exact isSome_idxGet_idxInsert _ _ j _ hsw
              · rw [if_neg hrem]
                exact hsw
          | Sell =>
              simp only [OrderBook.match_sell_order]
              have hsw := matchSweep_index_isSome
                ((pmKeys b.bids).reverse.filter fun p => decide (o.price ≤ p))
                o b.bids b.order_index b.next_trade_id now j h
              by_cases hrem : 0 < (finishTaker (matchSweep o
                  ((pmKeys b.bids).reverse.filter fun p => decide (o.price ≤ p))
                  b.bids b.order_index b.next_trade_id now).taker).remaining_quantity
              · rw [if_pos hrem]
                simp only [OrderBook.add_to_book]
                cases hside2 : (finishTaker (matchSweep o
                    ((pmKeys b.bids).reverse.filter fun p => decide (o.price ≤ p))
                    b.bids b.order_index b.next_trade_id now).taker).side <;>
                  exact isSome_idxGet_idxInsert _ _ j _ hsw
              · rw [if_neg hrem]
                exact hsw

/-- `cancel_order` never removes order-index keys. -/
theorem cancel_order_index_isSome (b : OrderBook) (i j : Nat)
    (h : (idxGet b.order_index j).isSome) :
    (idxGet (OrderBook.cancel_order b i).1.order_index j).isSome := by
  unfold OrderBook.cancel_order
  cases hidx : idxGet b.order_index i with
  | none => exact h
  | some m =>
      obtain ⟨mp, ms, mr⟩ := m
      cases ms with
      | Cancelled => exact h
      | Filled => exact h
      | Open => exact isSome_idxGet_idxInsert _ _ j _ h
      | PartiallyFilled => exact isSome_idxGet_idxInsert _ _ j _ h

/-- `cleanup_cancelled_order` on a different id never removes this id's
order-index key. -/
theorem cleanup_cancelled_order_index_isSome (b : OrderBook) (i j : Nat)
    (hne : j ≠ i) (h : (idxGet b.order_index j).isSome) :
    (idxGet (OrderBook.cleanup_cancelled_order b i).1.order_index j).isSome := by
  unfold OrderBook.cleanup_cancelled_order
  cases hidx : idxGet b.order_index i with
  | none => exact h
  | some m =>
      obtain ⟨mp, ms, mr⟩ := m
      cases ms with
      | Cancelled =>
          cases hb : pmGet b.bids mp with
          | some level =>
              simp only [hb]
              simpa [idxGet_idxRemove_ne b.order_index i j hne] using h
          | none =>
              cases ha : pmGet b.asks mp with
              | some level =>
                  simp only [hb, ha]
                  simpa [idxGet_idxRemove_ne b.order_index i j hne] using h
              | none =>
                  simp only [hb, ha]
                  exact h
      | Open => exact h
      | PartiallyFilled => exact h
      | Filled => exact h

end Clob

namespace Clob

/-! ## Claim C4 (amended): persistence of indexed order ids -/

/-- C4 (amended): an order id present in the order index — which every
successfully submitted order's id is, except a taker filled completely on
submission, which is never inserted (see `C4_counterexample`) — remains
findable via `get_order_status` after any later sequence of legal commands
containing no `cleanup_cancelled_order` command for that id; and any
submission reusing an id present in the index that passes the price,
quantity and market validations is rejected with `DuplicateOrderId`, leaving
the book unchanged. -/
theorem C4_amended_id_persistence :
    (∀ (b : OrderBook) (cs : List Cmd) (i : Nat),
      (idxGet b.order_index i).isSome →
      (∀ c ∈ cs, c ≠ Cmd.cleanup i) →
      (OrderBook.get_order_status (run b cs).1 i).isSome)
  ∧ (∀ (b : OrderBook) (o : Order) (now : Nat),
      o.price ≠ 0 → o.remaining_quantity ≠ 0 →
      o.market_id = b.market_id → o.outcome_id = b.outcome_id →
      (idxGet b.order_index o.id).isSome →
      OrderBook.process_limit_order b o now
        = (b, Except.error (OrderBookError.DuplicateOrderId o.id))) := by
  constructor
  · intro b cs
    induction cs generalizing b with
    | nil =>
        intro i h _
        simpa [run, OrderBook.get_order_status, Option.isSome_map] using h
    | cons c rest ih =>
        intro i h hclean
        simp only [run]
        refine ih (stepCmd b c).1 i ?_ fun c' hc' => hclean c' (List.mem_cons_of_mem _ hc')
        cases c with
        | submit o now =>
            simp only [stepCmd]
            cases hp : OrderBook.process_limit_order b o now with
            | mk b' r =>
                cases r with
                | ok res =>
                    have := process_limit_order_index_isSome b o now i h
                    rw [hp] at this
                    simpa using this
                | error e =>
                    have := process_limit_order_index_isSome b o now i h
                    rw [hp] at this
                    simpa using this
        | cancel k =>
            simpa [stepCmd] using cancel_order_index_isSome b k i h
        | cleanup k =>
            have hki : i ≠ k := by
              intro hik
              exact hclean (Cmd.cleanup k) (List.mem_cons_self _ _) (by rw [hik])
            simpa [stepCmd] using cleanup_cancelled_order_index_isSome b k i hki h
  · intro b o now h1 h2 h3m h3o h5
    simp [OrderBook.process_limit_order, h1, h2, h3m, h3o, h5]

/-- Witness for the amended C4: in `c3Book` id 2 is indexed; it stays findable
after a cancel of id 1 plus a cleanup of id 1, and resubmitting id 2 is
rejected as a duplicate. -/
theorem C4_amended_id_persistence_witness :
    (OrderBook.get_order_status
      (run c3Book [Cmd.cleanup 1, Cmd.cancel 2]).1 2).isSome
    ∧ OrderBook.process_limit_order c3Book
        (Order.with_timestamp 2 "u9" "m" "Y" Side.Buy 4000 10 9) 0
      = (c3Book, Except.error (OrderBookError.DuplicateOrderId 2)) :=
  ⟨C4_amended_id_persistence.1 c3Book [Cmd.cleanup 1, Cmd.cancel 2] 2
      (by decide) (by decide),
   C4_amended_id_persistence.2 c3Book
      (Order.with_timestamp 2 "u9" "m" "Y" Side.Buy 4000 10 9) 0
      (by decide) (by decide) (by decide) (by decide) (by decide)⟩

end Clob

namespace Clob

/-! ## Trade-field properties through the matching loop -/

/-- Through the per-level loop: if every queue member has positive remaining
quantity, the given market/outcome, and an acceptable identity (an abstract
predicate `R` over id, price and user), then every emitted trade has positive
quantity, the taker's user id, a maker user different from the taker's, the
given market/outcome, and an `R`-acceptable maker identity whose resting
price is the trade price; and the surviving queue members again satisfy all
the member properties. -/
theorem matchLoop_trades_props (os : List Order) :
    ∀ (t : Order) (total : Nat) (idx : Idx) (tid now : Nat) (M O : String)
      (R : Nat → Nat → String → Prop),
      (∀ mo ∈ os, 0 < mo.remaining_quantity ∧ mo.market_id = M
        ∧ mo.outcome_id = O ∧ R mo.id mo.price mo.user_id) →
      (∀ tr ∈ (matchLoop t os total idx tid now).trades,
          0 < tr.quantity
        ∧ tr.taker_user_id = t.user_id
        ∧ tr.maker_user_id ≠ tr.taker_user_id
        ∧ tr.market_id = M ∧ tr.outcome_id = O
        ∧ R tr.maker_order_id tr.price tr.maker_user_id)
      ∧ (∀ mo ∈ (matchLoop t os total idx tid now).orders,
          0 < mo.remaining_quantity ∧ mo.market_id = M
        ∧ mo.outcome_id = O ∧ R mo.id mo.price mo.user_id) := by
  induction os with
  | nil =>
      intro t total idx tid now M O R hmem
      by_cases h0 : t.remaining_quantity = 0
      · rw [matchLoop, if_pos h0]
        exact ⟨by simp, hmem⟩
      · rw [matchLoop, if_neg h0]
        exact ⟨by simp, by simp⟩
  | cons maker rest ih =>
      intro t total idx tid now M O R hmem
      have hmaker := hmem maker (List.mem_cons_self _ _)
      have hrest : ∀ mo ∈ rest, 0 < mo.remaining_quantity ∧ mo.market_id = M
          ∧ mo.outcome_id = O ∧ R mo.id mo.price mo.user_id :=
        fun mo hmo => hmem mo (List.mem_cons_of_mem _ hmo)
      by_cases h0 : t.remaining_quantity = 0
      · rw [matchLoop, if_pos h0]
        exact ⟨by simp, hmem⟩
      · by_cases hc : isCancelledIn idx maker.id = true
        · simp only [matchLoop, if_neg h0, hc, if_pos rfl]
          exact ih t total idx tid now M O R hrest
        · by_cases hu : maker.user_id = t.user_id
          · simp only [matchLoop, if_neg h0, hc, Bool.false_eq_true, if_false, hu,
              if_pos rfl]
            exact ⟨by simp, hmem⟩
          · by_cases hm : maker.remaining_quantity
                - min t.remaining_quantity maker.remaining_quantity = 0
            · simp only [matchLoop, if_neg h0, hc, Bool.false_eq_true, if_false, hu,
                if_neg hu, if_pos hm]
              obtain ⟨ihtr, ihmem⟩ := ih
                { t with remaining_quantity := t.remaining_quantity
                    - min t.remaining_quantity maker.remaining_quantity }
                (total - min t.remaining_quantity maker.remaining_quantity
                  - (maker.remaining_quantity
                      - min t.remaining_quantity maker.remaining_quantity))
                (idxUpdate idx maker.id fun m =>
                  { m with
                    remaining_quantity := maker.remaining_quantity
                      - min t.remaining_quantity maker.remaining_quantity
                    status := OrderStatus.Filled })
                (tid + 1) now M O R hrest
              constructor
              · intro tr htr
                simp only [List.mem_cons] at htr
                rcases htr with rfl | htr
                · refine ⟨lt_min_iff.mpr
                      ⟨Nat.pos_of_ne_zero h0, hmaker.1⟩, rfl, ?_, hmaker.2.1,
                    hmaker.2.2.1, hmaker.2.2.2⟩
                  simpa using hu
                · obtain ⟨hq, hto, hmo, hM, hO, hR⟩ := ihtr tr htr
                  exact ⟨hq, hto, hmo, hM, hO, hR⟩
              · exact ihmem
            · simp only [matchLoop, if_neg h0, hc, Bool.false_eq_true, if_false, hu,
                if_neg hu, if_neg hm]
              constructor
              · intro tr htr
                simp only [List.mem_cons, List.not_mem_nil, or_false] at htr
                subst htr
                refine ⟨lt_min_iff.mpr
                    ⟨Nat.pos_of_ne_zero h0, hmaker.1⟩, rfl, ?_, hmaker.2.1,
                  hmaker.2.2.1, hmaker.2.2.2⟩
                simpa using hu
              · intro mo hmo
                simp only [List.mem_cons] at hmo
                rcases hmo with rfl | hmo
                · exact ⟨Nat.pos_of_ne_zero hm, hmaker.2.1, hmaker.2.2.1,
                    hmaker.2.2.2⟩
                · exact hrest mo hmo

end Clob

namespace Clob

theorem mem_pmSet (m : PMap) (k : Nat) (v : PriceLevelQueue) :
    ∀ e ∈ pmSet m k v, e = (k, v) ∨ e ∈ m := by
  induction m with
  | nil => simp [pmSet]
  | cons e0 rest ih =>
      obtain ⟨k', v'⟩ := e0
      intro e he
      by_cases h : k' = k
      · subst h
        simp only [pmSet, if_pos rfl] at he
        rcases List.mem_cons.1 he with h' | h'
        · exact Or.inl h'
        · exact Or.inr (List.mem_cons_of_mem _ h')
      · simp only [pmSet, if_neg h] at he
        rcases List.mem_cons.1 he with h' | h'
        · exact Or.inr (h' ▸ List.mem_cons_self _ _)
        · rcases ih e h' with h'' | h''
          · exact Or.inl h''
          · exact Or.inr (List.mem_cons_of_mem _ h'')

theorem pmErase_sublist (m : PMap) (k : Nat) : (pmErase m k).Sublist m := by
  induction m with
  | nil => simp [pmErase]
  | cons e0 rest ih =>
      obtain ⟨k', v'⟩ := e0
      by_cases h : k' = k
      · simp only [pmErase, if_pos h]
        exact List.sublist_cons_self _ _
      · simp only [pmErase, if_neg h]
        exact List.Sublist.cons₂ _ ih

theorem mem_pmErase (m : PMap) (k : Nat) : ∀ e ∈ pmErase m k, e ∈ m :=
  fun e he => (pmErase_sublist m k).mem he

/-- Through the level sweep: member properties of the opposite book are
preserved and every emitted trade carries the taker's user, a different maker
user, the given market/outcome, positive quantity, and an `R`-acceptable
maker identity priced at the trade price. -/
theorem matchSweep_trades_props (ps : List Nat) :
    ∀ (t : Order) (book : PMap) (idx : Idx) (tid now : Nat) (M O : String)
      (R : Nat → Nat → String → Prop),
      (∀ e ∈ book, ∀ mo ∈ e.2.orders, 0 < mo.remaining_quantity
        ∧ mo.market_id = M ∧ mo.outcome_id = O ∧ R mo.id mo.price mo.user_id) →
      (∀ tr ∈ (matchSweep t ps book idx tid now).trades,
          0 < tr.quantity
        ∧ tr.taker_user_id = t.user_id
        ∧ tr.maker_user_id ≠ tr.taker_user_id
        ∧ tr.market_id = M ∧ tr.outcome_id = O
        ∧ R tr.maker_order_id tr.price tr.maker_user_id)
      ∧ (∀ e ∈ (matchSweep t ps book idx tid now).book, ∀ mo ∈ e.2.orders,
          0 < mo.remaining_quantity ∧ mo.market_id = M
        ∧ mo.outcome_id = O ∧ R mo.id mo.price mo.user_id) := by
  induction ps with
  | nil =>
      intro t book idx tid now M O R hbook
      rw [matchSweep]
      exact ⟨by simp, hbook⟩
  | cons p rest ih =>
      intro t book idx tid now M O R hbook
      by_cases h0 : t.remaining_quantity = 0
      · rw [matchSweep, if_pos h0]
        exact ⟨by simp, hbook⟩
      · cases hq : pmGet book p with
        | none =>
            simp only [matchSweep, if_neg h0, hq]
            exact ih t book idx tid now M O R hbook
        | some q =>
            simp only [matchSweep, if_neg h0, hq]
            have hqmem : (p, q) ∈ book := pmGet_mem book p q hq
            obtain ⟨looptr, loopmem⟩ :=
              matchLoop_trades_props q.orders t q.total_quantity idx tid now M O R
                (fun mo hmo => hbook (p, q) hqmem mo hmo)
            have hbook'' : ∀ e ∈ (if (matchLoop t q.orders q.total_quantity idx
                  tid now).orders.isEmpty
                then pmErase (pmSet book p
                  ⟨(matchLoop t q.orders q.total_quantity idx tid now).orders,
                   (matchLoop t q.orders q.total_quantity idx tid now).total⟩) p
                else pmSet book p
                  ⟨(matchLoop t q.orders q.total_quantity idx tid now).orders,
                   (matchLoop t q.orders q.total_quantity idx tid now).total⟩),
                ∀ mo ∈ e.2.orders, 0 < mo.remaining_quantity ∧ mo.market_id = M
                  ∧ mo.outcome_id = O ∧ R mo.id mo.price mo.user_id := by
              intro e he mo hmo
              have he' : e = (p, ⟨(matchLoop t q.orders q.total_quantity idx
                    tid now).orders,
                  (matchLoop t q.orders q.total_quantity idx tid now).total⟩)
                  ∨ e ∈ book := by
                by_cases hemp : (matchLoop t q.orders q.total_quantity idx
                    tid now).orders.isEmpty
                · rw [if_pos hemp] at he
                  exact mem_pmSet book p _ e (mem_pmErase _ p e he)
                · rw [if_neg hemp] at he
                  exact mem_pmSet book p _ e he
              rcases he' with rfl | he'
              · exact loopmem mo hmo
              · exact hbook e he' mo hmo
            obtain ⟨ihtr, ihmem⟩ := ih
              (matchLoop t q.orders q.total_quantity idx tid now).taker _
              (matchLoop t q.orders q.total_quantity idx tid now).index
              (matchLoop t q.orders q.total_quantity idx tid now).nextTid now M O R
              hbook''
            obtain ⟨rr, hrr⟩ :=
              matchLoop_taker_shape q.orders t q.total_quantity idx tid now
            constructor
            · intro tr htr
              rcases List.mem_append.1 htr with htr | htr
              · exact looptr tr htr
              · obtain ⟨hq1, hq2, hq3, hq4, hq5, hq6⟩ := ihtr tr htr
                refine ⟨hq1, ?_, ?_, hq4, hq5, hq6⟩
                · rw [hq2, hrr]
                · rw [hq2, hrr] at hq3 ⊢
                  exact hq3
            · exact ihmem

end Clob

namespace Clob

/-! ## Claim C5: fields of every emitted trade -/

/-- C5: on a book whose resting orders all have positive remaining quantity
and the book's market/outcome (as every reachable book's do), every trade
emitted by `process_limit_order` has positive quantity, the taker's user id,
a maker user different from the taker's, the book's market and outcome, and a
price equal to the resting price of the maker order it identifies on the
opposite side of the pre-submission book; moreover, at the moment of each
fill the traded quantity is exactly `min(taker.remaining, maker.remaining)`:
whenever the loop fills against a front maker, the first trade it emits has
quantity `min taker.remaining_quantity maker.remaining_quantity`. -/
theorem C5_trade_fields :
    (∀ (b : OrderBook) (o : Order) (now : Nat) (b' : OrderBook)
        (res : ProcessOrderResult),
      (∀ e ∈ b.asks, ∀ mo ∈ e.2.orders, 0 < mo.remaining_quantity
        ∧ mo.market_id = b.market_id ∧ mo.outcome_id = b.outcome_id) →
      (∀ e ∈ b.bids, ∀ mo ∈ e.2.orders, 0 < mo.remaining_quantity
        ∧ mo.market_id = b.market_id ∧ mo.outcome_id = b.outcome_id) →
      OrderBook.process_limit_order b o now = (b', Except.ok res) →
      ∀ tr ∈ res.trades,
          0 < tr.quantity
        ∧ tr.taker_user_id = o.user_id
        ∧ tr.maker_user_id ≠ tr.taker_user_id
        ∧ tr.market_id = b.market_id ∧ tr.outcome_id = b.outcome_id
        ∧ ∃ e, e ∈ (match o.side with
              | Side.Buy => b.asks
              | Side.Sell => b.bids)
            ∧ ∃ mo, mo ∈ e.2.orders ∧ mo.id = tr.maker_order_id
              ∧ tr.price = mo.price ∧ tr.maker_user_id = mo.user_id)
  ∧ (∀ (t maker : Order) (rest : List Order) (total : Nat) (idx : Idx)
        (tid now : Nat),
      t.remaining_quantity ≠ 0 →
      isCancelledIn idx maker.id = false →
      maker.user_id ≠ t.user_id →
      ((matchLoop t (maker :: rest) total idx tid now).trades.head?).map
          Trade.quantity
        = some (min t.remaining_quantity maker.remaining_quantity)) := by
  constructor
  · intro b o now b' res hasks hbids h tr htr
    by_cases h1 : o.price = 0
    · simp [OrderBook.process_limit_order, h1] at h
    · by_cases h2 : o.remaining_quantity = 0
      · simp [OrderBook.process_limit_order, h1, h2] at h
      · by_cases h3 : o.market_id ≠ b.market_id ∨ o.outcome_id ≠ b.outcome_id
        · simp [OrderBook.process_limit_order, h1, h2, h3] at h
        · push_neg at h3
          by_cases h4 : (idxGet b.order_index o.id).isSome
          · simp [OrderBook.process_limit_order, h1, h2, h3.1, h3.2, h4] at h
          · rw [process_limit_order_ok_eq b o now h1 h2 h3.1 h3.2
              (by simpa [Option.isSome_iff_ne_none] using h4)] at h
            have hres := congrArg Prod.snd h
            simp only [Except.ok.injEq] at hres
            cases hside : o.side with
            | Buy =>
                rw [hside] at hres
                simp only [OrderBook.match_buy_order] at hres
                rw [← hres] at htr
                simp only at htr
                obtain ⟨htrades, _⟩ := matchSweep_trades_props
                  ((pmKeys b.asks).filter fun p => decide (p ≤ o.price))
                  o b.asks b.order_index b.next_trade_id now
                  b.market_id b.outcome_id
                  (fun i p u => ∃ e, e ∈ b.asks ∧ ∃ mo, mo ∈ e.2.orders
                    ∧ mo.id = i ∧ p = mo.price ∧ u = mo.user_id)
                  (fun e he mo hmo =>
                    ⟨(hasks e he mo hmo).1, (hasks e he mo hmo).2.1,
                     (hasks e he mo hmo).2.2, e, he, mo, hmo, rfl, rfl, rfl⟩)
                obtain ⟨hq1, hq2, hq3, hq4, hq5, hq6⟩ := htrades tr htr
                exact ⟨hq1, hq2, hq3, hq4, hq5, by simpa [hside] using hq6⟩
            | Sell =>
                rw [hside] at hres
                simp only [OrderBook.match_sell_order] at hres
                rw [← hres] at htr
                simp only at htr
                obtain ⟨htrades, _⟩ := matchSweep_trades_props
                  ((pmKeys b.bids).reverse.filter fun p => decide (o.price ≤ p))
                  o b.bids b.order_index b.next_trade_id now
                  b.market_id b.outcome_id
                  (fun i p u => ∃ e, e ∈ b.bids ∧ ∃ mo, mo ∈ e.2.orders
                    ∧ mo.id = i ∧ p = mo.price ∧ u = mo.user_id)
                  (fun e he mo hmo =>
                    ⟨(hbids e he mo hmo).1, (hbids e he mo hmo).2.1,
                     (hbids e he mo hmo).2.2, e, he, mo, hmo, rfl, rfl, rfl⟩)
                obtain ⟨hq1, hq2, hq3, hq4, hq5, hq6⟩ := htrades tr htr
                exact ⟨hq1, hq2, hq3, hq4, hq5, by simpa [hside] using hq6⟩
  · intro t maker rest total idx tid now h0 hc hu
    by_cases hm : maker.remaining_quantity
        - min t.remaining_quantity maker.remaining_quantity = 0
    · simp only [matchLoop, if_neg h0, hc, Bool.false_eq_true, if_false,
        if_neg (fun h => hu h), if_pos hm]
      simp
    · simp only [matchLoop, if_neg h0, hc, Bool.false_eq_true, if_false,
        if_neg (fun h => hu h), if_neg hm]
      simp

end Clob

namespace Clob

/-- Concrete crossing buy for the C5 witness. -/
def c5wBuy : Order := Order.with_timestamp 9 "carol" "m" "Y" Side.Buy 5000 40 9

/-- Result of submitting `c5wBuy` on `c1Base`. -/
def c5wRes : ProcessOrderResult :=
  ((OrderBook.process_limit_order c1Base c5wBuy 0).2.toOption).getD ⟨[], c5wBuy⟩

/-- First trade of `c5wRes`. -/
def c5wTr : Trade := c5wRes.trades.headD
  { id := 0, taker_order_id := 0, maker_order_id := 0, taker_user_id := "",
    maker_user_id := "", market_id := "", outcome_id := "", price := 0,
    quantity := 0, timestamp := 0, taker_side := Side.Buy }

/-- Witness for C5 at concrete inputs. -/
theorem C5_trade_fields_witness :
    (0 < c5wTr.quantity
      ∧ c5wTr.taker_user_id = c5wBuy.user_id
      ∧ c5wTr.maker_user_id ≠ c5wTr.taker_user_id
      ∧ c5wTr.market_id = c1Base.market_id
      ∧ c5wTr.outcome_id = c1Base.outcome_id
      ∧ ∃ e, e ∈ c1Base.asks ∧ ∃ mo, mo ∈ e.2.orders
          ∧ mo.id = c5wTr.maker_order_id ∧ c5wTr.price = mo.price
          ∧ c5wTr.maker_user_id = mo.user_id)
    ∧ ((matchLoop c5wBuy [c1wMaker] 100 [] 1 0).trades.head?).map Trade.quantity
        = some (min 40 100) := by
  constructor
  · have h := C5_trade_fields.1 c1Base c5wBuy 0
      (OrderBook.process_limit_order c1Base c5wBuy 0).1 c5wRes
      (by decide) (by decide) (by decide) c5wTr (by decide)
    simpa using h
  · have h := C5_trade_fields.2 c5wBuy c1wMaker [] 100 [] 1 0
      (by decide) (by decide) (by decide)
    simpa [c5wBuy, c1wMaker, Order.with_timestamp] using h

end Clob

namespace Clob

/-! ## Claim C2 (amended): machinery -/

/-- No resting order of the taker's user sits at a crossing price on the
opposite side (the condition under which no self-trade halt can occur). -/
def selfCrossFreeB (b : OrderBook) (o : Order) : Bool :=
  match o.side with
  | Side.Buy =>
      b.asks.all fun e =>
        !(decide (e.1 ≤ o.price)) ||
          e.2.orders.all fun mo => decide (mo.user_id ≠ o.user_id)
  | Side.Sell =>
      b.bids.all fun e =>
        !(decide (o.price ≤ e.1)) ||
          e.2.orders.all fun mo => decide (mo.user_id ≠ o.user_id)

/-- A trace is safe when every submission is self-cross free at its point. -/
def SafeCmdsB (b : OrderBook) : List Cmd → Bool
  | [] => true
  | c :: cs =>
      (match c with
        | Cmd.submit o _ => selfCrossFreeB b o
        | _ => true)
      && SafeCmdsB (stepCmd b c).1 cs

/-- The inductive well-formedness the uncrossed-book argument maintains. -/
structure BookInv (b : OrderBook) : Prop where
  sortedBids : KSorted b.bids
  sortedAsks : KSorted b.asks
  uncrossed : ∀ bb ba, OrderBook.best_bid b = some bb →
    OrderBook.best_ask b = some ba → bb < ba

/-- `cancel_order` leaves both price maps unchanged (helper). -/
theorem cancel_order_books (b : OrderBook) (i : Nat) :
    (OrderBook.cancel_order b i).1.bids = b.bids
    ∧ (OrderBook.cancel_order b i).1.asks = b.asks := by
  unfold OrderBook.cancel_order
  cases hidx : idxGet b.order_index i with
  | none => exact ⟨rfl, rfl⟩
  | some m =>
      obtain ⟨mp, ms, mr⟩ := m
      cases ms <;> exact ⟨rfl, rfl⟩

/-- If the new maps' keys are contained in the old ones and the old book was
sorted and uncrossed, the new best quotes remain uncrossed. -/
theorem uncrossed_of_keys_subset (bidsOld asksOld bidsNew asksNew : PMap)
    (hsb : KSorted bidsOld) (hsa : KSorted asksOld)
    (hb : ∀ k ∈ pmKeys bidsNew, k ∈ pmKeys bidsOld)
    (ha : ∀ k ∈ pmKeys asksNew, k ∈ pmKeys asksOld)
    (hun : ∀ bb ba, pmLastKey bidsOld = some bb → pmFirstKey asksOld = some ba →
      bb < ba) :
    ∀ bb ba, pmLastKey bidsNew = some bb → pmFirstKey asksNew = some ba →
      bb < ba := by
  intro bb ba hbb hba
  have hbbKeys : bb ∈ pmKeys bidsOld := hb bb (pmLastKey_mem hbb)
  have hbaKeys : ba ∈ pmKeys asksOld := ha ba (pmFirstKey_mem hba)
  have hbne : bidsOld ≠ [] := by
    intro he
    rw [he] at hbbKeys
    simp [pmKeys] at hbbKeys
  have hane : asksOld ≠ [] := by
    intro he
    rw [he] at hbaKeys
    simp [pmKeys] at hbaKeys
  obtain ⟨bb0, hbb0⟩ : ∃ x, pmLastKey bidsOld = some x := by
    cases hx : pmLastKey bidsOld with
    | none => exact absurd ((pmLastKey_eq_none_iff _).1 hx) hbne
    | some x => exact ⟨x, rfl⟩
  obtain ⟨ba0, hba0⟩ : ∃ x, pmFirstKey asksOld = some x := by
    cases hx : pmFirstKey asksOld with
    | none => exact absurd ((pmFirstKey_eq_none_iff _).1 hx) hane
    | some x => exact ⟨x, rfl⟩
  have h1 : bb ≤ bb0 := le_pmLastKey hsb hbb0 bb hbbKeys
  have h2 : ba0 ≤ ba := pmFirstKey_le hsa hba0 ba hbaKeys
  have h3 : bb0 < ba0 := hun bb0 ba0 hbb0 hba0
  omega

end Clob

namespace Clob

/-- With sorted (hence duplicate-free) keys, erasing a key makes lookups of
that key fail. -/
theorem pmGet_pmErase_self (m : PMap) (k : Nat) (hs : KSorted m) :
    pmGet (pmErase m k) k = none := by
  induction m with
  | nil => simp [pmErase, pmGet]
  | cons e rest ih =>
      obtain ⟨k', v'⟩ := e
      by_cases h : k' = k
      · subst h
        simp only [pmErase, if_pos rfl]
        rw [pmGet_eq_none_iff]
        intro hk
        have hch : List.Chain' (· < ·) (k' :: pmKeys rest) := by
          simpa [KSorted, pmKeys] using hs
        have hpair := List.chain'_iff_pairwise.1 hch
        have hlt : k' < k' := (List.pairwise_cons.1 hpair).1 k' hk
        omega
      · simp only [pmErase, if_neg h, pmGet, if_neg h]
        refine ih ?_
        exact (List.chain'_cons'.1 (by simpa [pmKeys] using hs)).2

/-- The level sweep's output keys are contained in its input keys. -/
theorem matchSweep_keys_subset (ps : List Nat) :
    ∀ (t : Order) (book : PMap) (idx : Idx) (tid now : Nat),
      ∀ k ∈ pmKeys (matchSweep t ps book idx tid now).book, k ∈ pmKeys book := by
  induction ps with
  | nil =>
      intro t book idx tid now k hk
      rw [matchSweep] at hk
      exact hk
  | cons p rest ih =>
      intro t book idx tid now k hk
      by_cases h0 : t.remaining_quantity = 0
      · rw [matchSweep, if_pos h0] at hk
        exact hk
      · cases hq : pmGet book p with
        | none =>
            simp only [matchSweep, if_neg h0, hq] at hk
            exact ih t book idx tid now k hk
        | some q =>
            simp only [matchSweep, if_neg h0, hq] at hk
            have hk' := ih _ _ _ _ _ k hk
            by_cases hemp : (matchLoop t q.orders q.total_quantity idx
                tid now).orders.isEmpty
            · rw [if_pos hemp] at hk'
              have := (pmKeys_pmErase_sublist _ p).mem hk'
              rwa [pmKeys_pmSet] at this
            · rw [if_neg hemp] at hk'
              rwa [pmKeys_pmSet] at hk'

/-- The level sweep preserves sortedness of the book side. -/
theorem matchSweep_sorted (ps : List Nat) :
    ∀ (t : Order) (book : PMap) (idx : Idx) (tid now : Nat),
      KSorted book → KSorted (matchSweep t ps book idx tid now).book := by
  induction ps with
  | nil =>
      intro t book idx tid now hs
      rw [matchSweep]
      exact hs
  | cons p rest ih =>
      intro t book idx tid now hs
      by_cases h0 : t.remaining_quantity = 0
      · rw [matchSweep, if_pos h0]
        exact hs
      · cases hq : pmGet book p with
        | none =>
            simp only [matchSweep, if_neg h0, hq]
            exact ih t book idx tid now hs
        | some q =>
            simp only [matchSweep, if_neg h0, hq]
            refine ih _ _ _ _ _ ?_
            by_cases hemp : (matchLoop t q.orders q.total_quantity idx
                tid now).orders.isEmpty
            · rw [if_pos hemp]
              exact KSorted_pmErase _ p (KSorted_pmSet book p _ hs)
            · rw [if_neg hemp]
              exact KSorted_pmSet book p _ hs

/-- The level sweep leaves levels at prices outside its list untouched. -/
theorem matchSweep_get_notin (ps : List Nat) :
    ∀ (t : Order) (book : PMap) (idx : Idx) (tid now x : Nat),
      x ∉ ps → pmGet (matchSweep t ps book idx tid now).book x = pmGet book x := by
  induction ps with
  | nil =>
      intro t book idx tid now x _
      rw [matchSweep]
  | cons p rest ih =>
      intro t book idx tid now x hx
      have hxp : x ≠ p := fun h => hx (h ▸ List.mem_cons_self _ _)
      have hxr : x ∉ rest := fun h => hx (List.mem_cons_of_mem _ h)
      by_cases h0 : t.remaining_quantity = 0
      · rw [matchSweep, if_pos h0]
      · cases hq : pmGet book p with
        | none =>
            simp only [matchSweep, if_neg h0, hq]
            exact ih t book idx tid now x hxr
        | some q =>
            simp only [matchSweep, if_neg h0, hq]
            rw [ih _ _ _ _ _ x hxr]
            by_cases hemp : (matchLoop t q.orders q.total_quantity idx
                tid now).orders.isEmpty
            · rw [if_pos hemp, pmGet_pmErase_ne _ p x hxp, pmGet_pmSet_ne _ p x _ hxp]
            · rw [if_neg hemp, pmGet_pmSet_ne _ p x _ hxp]

/-- When no queue member belongs to the taker's user, the level loop either
exhausts the taker or empties the queue. -/
theorem matchLoop_consumes (os : List Order) :
    ∀ (t : Order) (total : Nat) (idx : Idx) (tid now : Nat),
      (∀ mo ∈ os, mo.user_id ≠ t.user_id) →
      (matchLoop t os total idx tid now).taker.remaining_quantity = 0
      ∨ (matchLoop t os total idx tid now).orders = [] := by
  induction os with
  | nil =>
      intro t total idx tid now _
      by_cases h0 : t.remaining_quantity = 0
      · rw [matchLoop, if_pos h0]
        exact Or.inl h0
      · rw [matchLoop, if_neg h0]
        exact Or.inr rfl
  | cons maker rest ih =>
      intro t total idx tid now husers
      by_cases h0 : t.remaining_quantity = 0
      · rw [matchLoop, if_pos h0]
        exact Or.inl h0
      · by_cases hc : isCancelledIn idx maker.id = true
        · simp only [matchLoop, if_neg h0, hc, if_pos rfl]
          exact ih t total idx tid now
            fun mo hmo => husers mo (List.mem_cons_of_mem _ hmo)
        · by_cases hu : maker.user_id = t.user_id
          · exact absurd hu (husers maker (List.mem_cons_self _ _))
          · by_cases hm : maker.remaining_quantity
                - min t.remaining_quantity maker.remaining_quantity = 0
            · simp only [matchLoop, if_neg h0, hc, Bool.false_eq_true, if_false,
                hu, if_neg hu, if_pos hm]
              exact ih _ _ _ _ _
                fun mo hmo => husers mo (List.mem_cons_of_mem _ hmo)
            · simp only [matchLoop, if_neg h0, hc, Bool.false_eq_true, if_false,
                hu, if_neg hu, if_neg hm]
              left
              rcases Nat.le_total t.remaining_quantity maker.remaining_quantity
                with hle | hle
              · show t.remaining_quantity
                  - min t.remaining_quantity maker.remaining_quantity = 0
                rw [Nat.min_eq_left hle]
                omega
              · exfalso
                rw [Nat.min_eq_right hle] at hm
                omega

end Clob

namespace Clob

/-- A sweep starting from an exhausted taker does nothing. -/
theorem matchSweep_zero (ps : List Nat) (t : Order) (book : PMap) (idx : Idx)
    (tid now : Nat) (h : t.remaining_quantity = 0) :
    matchSweep t ps book idx tid now = ⟨t, book, idx, tid, []⟩ := by
  cases ps with
  | nil => rw [matchSweep]
  | cons p rest => rw [matchSweep, if_pos h]

/-- Under a self-cross-free sweep over duplicate-free crossing prices on a
sorted side, a taker that finishes with remaining quantity consumed every
listed level: each listed price is gone from the resulting side. -/
theorem matchSweep_consumes (ps : List Nat) :
    ∀ (t : Order) (book : PMap) (idx : Idx) (tid now : Nat),
      KSorted book →
      (∀ p ∈ ps, ∀ q, pmGet book p = some q →
        ∀ mo ∈ q.orders, mo.user_id ≠ t.user_id) →
      ps.Pairwise (· ≠ ·) →
      (matchSweep t ps book idx tid now).taker.remaining_quantity ≠ 0 →
      ∀ p ∈ ps, pmGet (matchSweep t ps book idx tid now).book p = none := by
  induction ps with
  | nil =>
      intro t book idx tid now _ _ _ _ p hp
      simp at hp
  | cons p rest ih =>
      intro t book idx tid now hs husers hnodup hrem x hx
      have hpnotin : ∀ y ∈ rest, p ≠ y := (List.pairwise_cons.1 hnodup).1
      have hnodup' : rest.Pairwise (· ≠ ·) := (List.pairwise_cons.1 hnodup).2
      by_cases h0 : t.remaining_quantity = 0
      · rw [matchSweep, if_pos h0] at hrem
        exact absurd h0 hrem
      · cases hq : pmGet book p with
        | none =>
            simp only [matchSweep, if_neg h0, hq] at hrem ⊢
            rcases List.mem_cons.1 hx with rfl | hx'
            · rw [matchSweep_get_notin rest t book idx tid now x
                (fun hmem => (hpnotin x hmem) rfl)]
              exact hq
            · exact ih t book idx tid now hs
                (fun p' hp' => husers p' (List.mem_cons_of_mem _ hp'))
                hnodup' hrem x hx'
        | some q =>
            simp only [matchSweep, if_neg h0, hq] at hrem ⊢
            rcases matchLoop_consumes q.orders t q.total_quantity idx tid now
                (husers p (List.mem_cons_self _ _) q hq) with hzero | hempty
            · rw [matchSweep_zero rest _ _ _ _ now hzero] at hrem
              exact absurd hzero hrem
            · have hemp : (matchLoop t q.orders q.total_quantity idx
                  tid now).orders.isEmpty = true := by
                rw [hempty]
                rfl
              rw [if_pos hemp] at hrem ⊢
              obtain ⟨rr, hrr⟩ :=
                matchLoop_taker_shape q.orders t q.total_quantity idx tid now
              rcases List.mem_cons.1 hx with rfl | hx'
              · rw [matchSweep_get_notin rest _ _ _ _ _ x
                  (fun hmem => (hpnotin x hmem) rfl)]
                exact pmGet_pmErase_self _ x (KSorted_pmSet book x _ hs)
              · refine ih (matchLoop t q.orders q.total_quantity idx tid now).taker
                  _ (matchLoop t q.orders q.total_quantity idx tid now).index
                  (matchLoop t q.orders q.total_quantity idx tid now).nextTid now
                  (KSorted_pmErase _ p (KSorted_pmSet book p _ hs))
                  ?_ hnodup' hrem x hx'
                intro p' hp' q' hq' mo hmo
                have hp'ne : p' ≠ p := fun h => (hpnotin p' hp') h.symm
                rw [pmGet_pmErase_ne _ p p' hp'ne, pmGet_pmSet_ne _ p p' _ hp'ne]
                  at hq'
                have := husers p' (List.mem_cons_of_mem _ hp') q' hq' mo hmo
                rw [hrr]
                exact this

end Clob

namespace Clob

/-- Crossing ask prices collected by a buy sweep are pairwise distinct. -/
theorem buy_prices_nodup (m : PMap) (hs : KSorted m) (c : Nat) :
    ((pmKeys m).filter fun p => decide (p ≤ c)).Pairwise (· ≠ ·) := by
  have hpair : (pmKeys m).Pairwise (· < ·) := List.chain'_iff_pairwise.1 hs
  exact (hpair.filter _).imp Nat.ne_of_lt

/-- Crossing bid prices collected by a sell sweep are pairwise distinct. -/
theorem sell_prices_nodup (m : PMap) (hs : KSorted m) (c : Nat) :
    ((pmKeys m).reverse.filter fun p => decide (c ≤ p)).Pairwise (· ≠ ·) := by
  have hpair : (pmKeys m).Pairwise (· < ·) := List.chain'_iff_pairwise.1 hs
  have hrev : (pmKeys m).reverse.Pairwise (· > ·) :=
    (List.pairwise_reverse).2 (by simpa using hpair)
  exact (hrev.filter _).imp fun h => (Nat.ne_of_lt h).symm

/-- Unfold `selfCrossFreeB` for a buy taker. -/
theorem selfCrossFreeB_buy (b : OrderBook) (o : Order) (hside : o.side = Side.Buy)
    (h : selfCrossFreeB b o = true) :
    ∀ p ∈ ((pmKeys b.asks).filter fun p => decide (p ≤ o.price)),
      ∀ q, pmGet b.asks p = some q → ∀ mo ∈ q.orders, mo.user_id ≠ o.user_id := by
  intro p hp q hq mo hmo
  rw [selfCrossFreeB, hside] at h
  have hple : p ≤ o.price := by
    have := (List.mem_filter.1 hp).2
    simpa using this
  have hmem : (p, q) ∈ b.asks := pmGet_mem b.asks p q hq
  have := (List.all_eq_true.1 h) (p, q) hmem
  simp only [Bool.or_eq_true, Bool.not_eq_true', decide_eq_false_iff_not] at this
  rcases this with h' | h'
  · exact absurd hple h'
  · have := (List.all_eq_true.1 h') mo hmo
    simpa using this

/-- Unfold `selfCrossFreeB` for a sell taker. -/
theorem selfCrossFreeB_sell (b : OrderBook) (o : Order) (hside : o.side = Side.Sell)
    (h : selfCrossFreeB b o = true) :
    ∀ p ∈ ((pmKeys b.bids).reverse.filter fun p => decide (o.price ≤ p)),
      ∀ q, pmGet b.bids p = some q → ∀ mo ∈ q.orders, mo.user_id ≠ o.user_id := by
  intro p hp q hq mo hmo
  rw [selfCrossFreeB, hside] at h
  have hple : o.price ≤ p := by
    have := (List.mem_filter.1 hp).2
    simpa using this
  have hmem : (p, q) ∈ b.bids := pmGet_mem b.bids p q hq
  have := (List.all_eq_true.1 h) (p, q) hmem
  simp only [Bool.or_eq_true, Bool.not_eq_true', decide_eq_false_iff_not] at this
  rcases this with h' | h'
  · exact absurd hple h'
  · have := (List.all_eq_true.1 h') mo hmo
    simpa using this

/-- `finishTaker` does not change the remaining quantity. -/
theorem finishTaker_remaining (o : Order) :
    (finishTaker o).remaining_quantity = o.remaining_quantity := by
  obtain ⟨s, hs⟩ := finishTaker_shape o
  rw [hs]

end Clob

namespace Clob

/-- A validated submission that never meets a same-user resting order at a
crossing price preserves sortedness and the uncrossed book. -/
theorem process_preserves_inv (b : OrderBook) (o : Order) (now : Nat)
    (hinv : BookInv b) (hsafe : selfCrossFreeB b o = true) :
    BookInv (OrderBook.process_limit_order b o now).1 := by
  by_cases h1 : o.price = 0
  · simpa [OrderBook.process_limit_order, h1] using hinv
  · by_cases h2 : o.remaining_quantity = 0
    · simpa [OrderBook.process_limit_order, h1, h2] using hinv
    · by_cases h3 : o.market_id ≠ b.market_id ∨ o.outcome_id ≠ b.outcome_id
      · simpa [OrderBook.process_limit_order, h1, h2, h3] using hinv
      · push_neg at h3
        by_cases h4 : (idxGet b.order_index o.id).isSome
        · simpa [OrderBook.process_limit_order, h1, h2, h3.1, h3.2, h4] using hinv
        · rw [process_limit_order_ok_eq b o now h1 h2 h3.1 h3.2
            (by simpa [Option.isSome_iff_ne_none] using h4)]
          cases hside : o.side with
          | Buy =>
              simp only [hside, OrderBook.match_buy_order]
              set S := matchSweep o
                ((pmKeys b.asks).filter fun p => decide (p ≤ o.price))
                b.asks b.order_index b.next_trade_id now with hS
              set o1 := finishTaker S.taker with ho1
              have hsortA : KSorted S.book := by
                rw [hS]
                exact matchSweep_sorted _ o b.asks b.order_index b.next_trade_id
                  now hinv.sortedAsks
              have hsubA : ∀ k ∈ pmKeys S.book, k ∈ pmKeys b.asks := by
                rw [hS]
                exact matchSweep_keys_subset _ o b.asks b.order_index
                  b.next_trade_id now
              obtain ⟨rs, hrs⟩ := matchSweep_taker_shape
                ((pmKeys b.asks).filter fun p => decide (p ≤ o.price))
                o b.asks b.order_index b.next_trade_id now
              rw [← hS] at hrs
              obtain ⟨st, hst⟩ := finishTaker_shape S.taker
              have ho1eq : o1 = { o with remaining_quantity := rs, status := st } := by
                rw [ho1, hst, hrs]
              have ho1price : o1.price = o.price := by rw [ho1eq]
              have ho1side : o1.side = Side.Buy := by
                rw [ho1eq]
                exact hside
              by_cases hrem : 0 < o1.remaining_quantity
              · rw [if_pos hrem]
                simp only [OrderBook.add_to_book, ho1side]
                have hremS : S.taker.remaining_quantity ≠ 0 := by
                  rw [ho1, finishTaker_remaining] at hrem
                  omega
                have hcons := matchSweep_consumes
                  ((pmKeys b.asks).filter fun p => decide (p ≤ o.price))
                  o b.asks b.order_index b.next_trade_id now hinv.sortedAsks
                  (selfCrossFreeB_buy b o hside hsafe)
                  (buy_prices_nodup b.asks hinv.sortedAsks o.price)
                  (by rw [← hS]; exact hremS)
                have hk2 : ∀ k ∈ pmKeys S.book, o.price < k := by
                  intro k hk
                  by_contra hle
                  push_neg at hle
                  have hkeys : k ∈ pmKeys b.asks := hsubA k hk
                  have hkp : k ∈ ((pmKeys b.asks).filter
                      fun p => decide (p ≤ o.price)) :=
                    List.mem_filter.2 ⟨hkeys, by simpa using hle⟩
                  have hnone := hcons k hkp
                  rw [← hS] at hnone
                  rw [pmGet_eq_none_iff] at hnone
                  exact hnone hk
                refine ⟨?_, ?_, ?_⟩
                · exact KSorted_pmPush b.bids o1.price o1 hinv.sortedBids
                · exact hsortA
                · intro bb ba hbb hba
                  simp only [OrderBook.best_bid, OrderBook.best_ask] at hbb hba
                  have hbbmem : bb ∈ pmKeys (pmPush b.bids o1.price o1) :=
                    pmLastKey_mem hbb
                  have hbamem : ba ∈ pmKeys S.book := pmFirstKey_mem hba
                  have hba2 : o.price < ba := hk2 ba hbamem
                  rcases mem_pmKeys_pmPush hbbmem with rfl | hbbold
                  · rwa [ho1price]
                  · have hbne : b.bids ≠ [] := by
                      intro he
                      rw [he] at hbbold
                      simp [pmKeys] at hbbold
                    obtain ⟨bb0, hbb0⟩ : ∃ x, pmLastKey b.bids = some x := by
                      cases hx : pmLastKey b.bids with
                      | none => exact absurd ((pmLastKey_eq_none_iff _).1 hx) hbne
                      | some x => exact ⟨x, rfl⟩
                    have h1b : bb ≤ bb0 :=
                      le_pmLastKey hinv.sortedBids hbb0 bb hbbold
                    have hbaold : ba ∈ pmKeys b.asks := hsubA ba hbamem
                    have hane : b.asks ≠ [] := by
                      intro he
                      rw [he] at hbaold
                      simp [pmKeys] at hbaold
                    obtain ⟨ba0, hba0⟩ : ∃ x, pmFirstKey b.asks = some x := by
                      cases hx : pmFirstKey b.asks with
                      | none => exact absurd ((pmFirstKey_eq_none_iff _).1 hx) hane
                      | some x => exact ⟨x, rfl⟩
                    have h2a : ba0 ≤ ba :=
                      pmFirstKey_le hinv.sortedAsks hba0 ba hbaold
                    have h3 := hinv.uncrossed bb0 ba0 hbb0 hba0
                    omega
              · rw [if_neg hrem]
                refine ⟨hinv.sortedBids, hsortA, ?_⟩
                intro bb ba hbb hba
                simp only [OrderBook.best_bid, OrderBook.best_ask] at hbb hba
                exact uncrossed_of_keys_subset b.bids b.asks b.bids S.book
                  hinv.sortedBids hinv.sortedAsks (fun k hk => hk) hsubA
                  hinv.uncrossed bb ba hbb hba
          | Sell =>
              simp only [hside, OrderBook.match_sell_order]
              set S := matchSweep o
                ((pmKeys b.bids).reverse.filter fun p => decide (o.price ≤ p))
                b.bids b.order_index b.next_trade_id now with hS
              set o1 := finishTaker S.taker with ho1
              have hsortB : KSorted S.book := by
                rw [hS]
                exact matchSweep_sorted _ o b.bids b.order_index b.next_trade_id
                  now hinv.sortedBids
              have hsubB : ∀ k ∈ pmKeys S.book, k ∈ pmKeys b.bids := by
                rw [hS]
                exact matchSweep_keys_subset _ o b.bids b.order_index
                  b.next_trade_id now
              obtain ⟨rs, hrs⟩ := matchSweep_taker_shape
                ((pmKeys b.bids).reverse.filter fun p => decide (o.price ≤ p))
                o b.bids b.order_index b.next_trade_id now
              rw [← hS] at hrs
              obtain ⟨st, hst⟩ := finishTaker_shape S.taker
              have ho1eq : o1 = { o with remaining_quantity := rs, status := st } := by
                rw [ho1, hst, hrs]
              have ho1price : o1.price = o.price := by rw [ho1eq]
              have ho1side : o1.side = Side.Sell := by
                rw [ho1eq]
                exact hside
              by_cases hrem : 0 < o1.remaining_quantity
              · rw [if_pos hrem]
                simp only [OrderBook.add_to_book, ho1side]
                have hremS : S.taker.remaining_quantity ≠ 0 := by
                  rw [ho1, finishTaker_remaining] at hrem
                  omega
                have hcons := matchSweep_consumes
                  ((pmKeys b.bids).reverse.filter fun p => decide (o.price ≤ p))
                  o b.bids b.order_index b.next_trade_id now hinv.sortedBids
                  (selfCrossFreeB_sell b o hside hsafe)
                  (sell_prices_nodup b.bids hinv.sortedBids o.price)
                  (by rw [← hS]; exact hremS)
                have hk2 : ∀ k ∈ pmKeys S.book, k < o.price := by
                  intro k hk
                  by_contra hle
                  push_neg at hle
                  have hkeys : k ∈ pmKeys b.bids := hsubB k hk
                  have hkp : k ∈ ((pmKeys b.bids).reverse.filter
                      fun p => decide (o.price ≤ p)) :=
                    List.mem_filter.2 ⟨List.mem_reverse.2 hkeys, by simpa using hle⟩
                  have hnone := hcons k hkp
                  rw [← hS] at hnone
                  rw [pmGet_eq_none_iff] at hnone
                  exact hnone hk
                refine ⟨?_, ?_, ?_⟩
                · exact hsortB
                · exact KSorted_pmPush b.asks o1.price o1 hinv.sortedAsks
                · intro bb ba hbb hba
                  simp only [OrderBook.best_bid, OrderBook.best_ask] at hbb hba
                  have hbamem : ba ∈ pmKeys (pmPush b.asks o1.price o1) :=
                    pmFirstKey_mem hba
                  have hbbmem : bb ∈ pmKeys S.book := pmLastKey_mem hbb
                  have hbb2 : bb < o.price := hk2 bb hbbmem
                  rcases mem_pmKeys_pmPush hbamem with rfl | hbaold
                  · rwa [ho1price]
                  · have hbbold : bb ∈ pmKeys b.bids := hsubB bb hbbmem
                    have hbne : b.bids ≠ [] := by
                      intro he
                      rw [he] at hbbold
                      simp [pmKeys] at hbbold
                    obtain ⟨bb0, hbb0⟩ : ∃ x, pmLastKey b.bids = some x := by
                      cases hx : pmLastKey b.bids with
                      | none => exact absurd ((pmLastKey_eq_none_iff _).1 hx) hbne
                      | some x => exact ⟨x, rfl⟩
                    have h1b : bb ≤ bb0 :=
                      le_pmLastKey hinv.sortedBids hbb0 bb hbbold
                    have hane : b.asks ≠ [] := by
                      intro he
                      rw [he] at hbaold
                      simp [pmKeys] at hbaold
                    obtain ⟨ba0, hba0⟩ : ∃ x, pmFirstKey b.asks = some x := by
                      cases hx : pmFirstKey b.asks with
                      | none => exact absurd ((pmFirstKey_eq_none_iff _).1 hx) hane
                      | some x => exact ⟨x, rfl⟩
                    have h2a : ba0 ≤ ba :=
                      pmFirstKey_le hinv.sortedAsks hba0 ba hbaold
                    have h3 := hinv.uncrossed bb0 ba0 hbb0 hba0
                    omega
              · rw [if_neg hrem]
                refine ⟨hsortB, hinv.sortedAsks, ?_⟩
                intro bb ba hbb hba
                simp only [OrderBook.best_bid, OrderBook.best_ask] at hbb hba
                exact uncrossed_of_keys_subset b.bids b.asks S.book b.asks
                  hinv.sortedBids hinv.sortedAsks hsubB (fun k hk => hk)
                  hinv.uncrossed bb ba hbb hba

end Clob

namespace Clob

/-- Replacing a level (and possibly erasing its key) keeps the map sorted
and does not introduce new keys (helper for cleanup preservation). -/
theorem pmShrink_sorted_subset (m : PMap) (p : Nat) (v : PriceLevelQueue)
    (c : Bool) (hs : KSorted m) :
    KSorted (if c then pmErase (pmSet m p v) p else pmSet m p v)
    ∧ ∀ k ∈ pmKeys (if c then pmErase (pmSet m p v) p else pmSet m p v),
        k ∈ pmKeys m := by
  cases c
  · simp only [Bool.false_eq_true, if_false]
    refine ⟨KSorted_pmSet m p v hs, ?_⟩
    intro k hk
    rwa [pmKeys_pmSet] at hk
  · simp only [if_true]
    refine ⟨KSorted_pmErase _ _ (KSorted_pmSet m p v hs), ?_⟩
    intro k hk
    have hk' := (pmKeys_pmErase_sublist (pmSet m p v) p).subset hk
    rwa [pmKeys_pmSet] at hk'

/-- `cleanup_cancelled_order` preserves sortedness and the uncrossed book. -/
theorem cleanup_preserves_inv (b : OrderBook) (i : Nat) (hinv : BookInv b) :
    BookInv (OrderBook.cleanup_cancelled_order b i).1 := by
  unfold OrderBook.cleanup_cancelled_order
  cases hidx : idxGet b.order_index i with
  | none => exact hinv
  | some m =>
      dsimp only
      by_cases hst : m.status ≠ OrderStatus.Cancelled
      · rw [if_pos hst]
        exact hinv
      · rw [if_neg hst]
        cases hbid : pmGet b.bids m.price with
        | some level =>
            obtain ⟨hsort, hsub⟩ := pmShrink_sorted_subset b.bids m.price
              ⟨level.orders.filter fun o => decide (o.id ≠ i),
               ((level.orders.filter fun o => decide (o.id ≠ i)).map
                 Order.remaining_quantity).sum⟩
              (level.orders.filter fun o => decide (o.id ≠ i)).isEmpty
              hinv.sortedBids
            refine ⟨hsort, hinv.sortedAsks, ?_⟩
            intro bb ba hbb hba
            simp only [OrderBook.best_bid, OrderBook.best_ask] at hbb hba
            exact uncrossed_of_keys_subset b.bids b.asks _ b.asks
              hinv.sortedBids hinv.sortedAsks hsub (fun k hk => hk)
              hinv.uncrossed bb ba hbb hba
        | none =>
            cases hask : pmGet b.asks m.price with
            | some level =>
                obtain ⟨hsort, hsub⟩ := pmShrink_sorted_subset b.asks m.price
                  ⟨level.orders.filter fun o => decide (o.id ≠ i),
                   ((level.orders.filter fun o => decide (o.id ≠ i)).map
                     Order.remaining_quantity).sum⟩
                  (level.orders.filter fun o => decide (o.id ≠ i)).isEmpty
                  hinv.sortedAsks
                refine ⟨hinv.sortedBids, hsort, ?_⟩
                intro bb ba hbb hba
                simp only [OrderBook.best_bid, OrderBook.best_ask] at hbb hba
                exact uncrossed_of_keys_subset b.bids b.asks b.bids _
                  hinv.sortedBids hinv.sortedAsks (fun k hk => hk) hsub
                  hinv.uncrossed bb ba hbb hba
            | none => exact hinv

/-- `cancel_order` preserves sortedness and the uncrossed book: it only
touches the order index. -/
theorem cancel_preserves_inv (b : OrderBook) (i : Nat) (hinv : BookInv b) :
    BookInv (OrderBook.cancel_order b i).1 := by
  obtain ⟨hb, ha⟩ := cancel_order_books b i
  refine ⟨?_, ?_, ?_⟩
  · rw [hb]
    exact hinv.sortedBids
  · rw [ha]
    exact hinv.sortedAsks
  · intro bb ba hbb hba
    simp only [OrderBook.best_bid, hb] at hbb
    simp only [OrderBook.best_ask, ha] at hba
    exact hinv.uncrossed bb ba hbb hba

/-- One safe command preserves the invariant. -/
theorem stepCmd_preserves_inv (b : OrderBook) (c : Cmd) (hinv : BookInv b)
    (hsafe : (match c with
      | Cmd.submit o _ => selfCrossFreeB b o
      | _ => true) = true) :
    BookInv (stepCmd b c).1 := by
  cases c with
  | submit o now =>
      have hfst : (stepCmd b (Cmd.submit o now)).1
          = (OrderBook.process_limit_order b o now).1 := by
        simp only [stepCmd]
        cases hres : OrderBook.process_limit_order b o now with
        | mk b' r => cases r <;> rfl
      rw [hfst]
      exact process_preserves_inv b o now hinv (by simpa using hsafe)
  | cancel i => exact cancel_preserves_inv b i hinv
  | cleanup i => exact cleanup_preserves_inv b i hinv

/-- A safe trace preserves the invariant. -/
theorem run_preserves_inv : ∀ (cs : List Cmd) (b : OrderBook),
    BookInv b → SafeCmdsB b cs = true → BookInv (run b cs).1
  | [], _, hinv, _ => hinv
  | c :: cs, b, hinv, hsafe => by
      rw [run]
      have h := hsafe
      cases c with
      | submit o now =>
          rw [SafeCmdsB, Bool.and_eq_true] at h
          exact run_preserves_inv cs (stepCmd b (Cmd.submit o now)).1
            (stepCmd_preserves_inv b (Cmd.submit o now) hinv (by simpa using h.1))
            h.2
      | cancel i =>
          rw [SafeCmdsB, Bool.and_eq_true] at h
          · exact run_preserves_inv cs (stepCmd b (Cmd.cancel i)).1
              (stepCmd_preserves_inv b (Cmd.cancel i) hinv (by simp)) h.2
          · intro o now hco
            cases hco
      | cleanup i =>
          rw [SafeCmdsB, Bool.and_eq_true] at h
          · exact run_preserves_inv cs (stepCmd b (Cmd.cleanup i)).1
              (stepCmd_preserves_inv b (Cmd.cleanup i) hinv (by simp)) h.2
          · intro o now hco
            cases hco

end Clob

namespace Clob

/-- Concrete resting sell for the C2 witness. -/
def c2wSell : Order := Order.with_timestamp 11 "u1" "m" "Y" Side.Sell 6000 100 1

/-- Concrete non-crossing buy by another user for the C2 witness. -/
def c2wBuy : Order := Order.with_timestamp 12 "u2" "m" "Y" Side.Buy 5000 100 2

/-- Concrete safe command trace for the C2 witness. -/
def c2wCs : List Cmd := [Cmd.submit c2wSell 0, Cmd.submit c2wBuy 1]

/-- C2 (amended): after any sequence of legal commands from a fresh book in
which every submission is self-cross free at its point (no submission meets a
resting order of its own user at a crossing price, so no self-trade halt can
fire), whenever `best_bid` and `best_ask` are both defined they satisfy
`best_bid < best_ask`. -/
theorem C2_amended_uncrossed_without_self_cross (mkt out : String)
    (cs : List Cmd) (hsafe : SafeCmdsB (OrderBook.new mkt out) cs = true)
    (bb ba : Nat)
    (hbb : OrderBook.best_bid (run (OrderBook.new mkt out) cs).1 = some bb)
    (hba : OrderBook.best_ask (run (OrderBook.new mkt out) cs).1 = some ba) :
    bb < ba := by
  have hinv0 : BookInv (OrderBook.new mkt out) := by
    refine ⟨?_, ?_, ?_⟩
    · simp [KSorted, OrderBook.new, pmKeys]
    · simp [KSorted, OrderBook.new, pmKeys]
    · intro bb' ba' hbb' hba'
      simp [OrderBook.best_bid, OrderBook.new, pmLastKey, pmKeys] at hbb'
  exact (run_preserves_inv cs (OrderBook.new mkt out) hinv0 hsafe).uncrossed
    bb ba hbb hba

/-- Witness for the amended C2 at a concrete safe trace. -/
theorem C2_amended_uncrossed_without_self_cross_witness :
    SafeCmdsB (OrderBook.new "m" "Y") c2wCs = true
    ∧ OrderBook.best_bid (run (OrderBook.new "m" "Y") c2wCs).1 = some 5000
    ∧ OrderBook.best_ask (run (OrderBook.new "m" "Y") c2wCs).1 = some 6000
    ∧ 5000 < 6000 :=
  ⟨by decide, by decide, by decide,
   C2_amended_uncrossed_without_self_cross "m" "Y" c2wCs (by decide) 5000 6000
     (by decide) (by decide)⟩

end Clob
